import Mathlib

/-!
# ndn-cxx `Block` (src/encoding/block.cpp): a shallow embedding

A `Block` is one node of a TLV tree.  The embedding keeps the fields of the C++ class:
a shared backing buffer (possibly null), iterators into it (modelled as offsets from the
start of the buffer), the cached size and the list of sub-blocks.  Operations that throw
return `Except Error _`; member functions that mutate `*this` and may throw return an
`Outcome` holding the state of the object after the call.
-/

namespace ndn

/-- One octet (`uint8_t`). -/
abbrev Byte := Fin 256

/-- The contents of a `Buffer` (a `std::vector<uint8_t>`). -/
abbrev Buffer := List Byte

/-- The two exception classes of block.cpp: `tlv::Error` (the format error of the
specification) and `Block::Error` (its encoding and not-found errors). -/
inductive Error where
  | tlvError (what : String)
  | blockError (what : String)
deriving DecidableEq, Repr

/-- Whether the error is a `tlv::Error` raised as such (a format error). -/
def Error.isFormatError : Error → Bool
  | .tlvError _ => true
  | .blockError _ => false

/-- The octets of the iterator range `[first, last)` of a buffer. -/
def range (buffer : Buffer) (first last : Nat) : List Byte :=
  (buffer.take last).drop first

namespace tlv

/-- The octet holding the low eight bits of a number. -/
def byteOf (n : Nat) : Byte := ⟨n % 256, Nat.mod_lt n (by decide)⟩

/-- Modelled from the spec: tlv.hpp, the variable-length number codec that block.cpp
calls, is not among the sources.  Section 6 of the specification describes it as decoding a
variable-length unsigned integer from the front of a range; the layout is the NDN one
(a first octet below 253 is the number itself, 253, 254 and 255 announce a big-endian
number of 2, 4 and 8 octets).  The result is the number and the count of octets
consumed; `none` is the failure of a truncated encoding. -/
def decodeVarNumber : List Byte → Option (Nat × Nat)
  | [] => none
  | firstOctet :: rest =>
    if firstOctet.val < 253 then some (firstOctet.val, 1)
    else if firstOctet.val = 253 then
      match rest with
      | b0 :: b1 :: _ => some (b0.val * 256 + b1.val, 3)
      | _ => none
    else if firstOctet.val = 254 then
      match rest with
      | b0 :: b1 :: b2 :: b3 :: _ =>
        some (((b0.val * 256 + b1.val) * 256 + b2.val) * 256 + b3.val, 5)
      | _ => none
    else
      match rest with
      | b0 :: b1 :: b2 :: b3 :: b4 :: b5 :: b6 :: b7 :: _ =>
        some (((((((b0.val * 256 + b1.val) * 256 + b2.val) * 256 + b3.val) * 256
          + b4.val) * 256 + b5.val) * 256 + b6.val) * 256 + b7.val, 9)
      | _ => none

/-- Modelled from the spec: the non-throwing `tlv::readVarNumber(begin, end, number)` of
the missing tlv.hpp, on the range `[begin, end_)` of a buffer: the number read and the
advanced iterator, or `none` for the false success flag. -/
def tryReadVarNumber (buffer : Buffer) (begin end_ : Nat) : Option (Nat × Nat) :=
  match decodeVarNumber (range buffer begin end_) with
  | none => none
  | some (number, consumed) => some (number, begin + consumed)

/-- Modelled from the spec: the non-throwing `tlv::readType(begin, end, type)` of the
missing tlv.hpp: a variable-length number that must fit the 32-bit type. -/
def tryReadType (buffer : Buffer) (begin end_ : Nat) : Option (Nat × Nat) :=
  match tryReadVarNumber buffer begin end_ with
  | none => none
  | some (number, next) => if number > 4294967295 then none else some (number, next)

/-- Modelled from the spec: the throwing `tlv::readVarNumber(begin, end)` of the missing
tlv.hpp: the same decoding, failing with a `tlv::Error`. -/
def readVarNumber (buffer : Buffer) (begin end_ : Nat) : Except Error (Nat × Nat) :=
  if range buffer begin end_ = [] then
    .error (.tlvError "Empty buffer during TLV processing")
  else
    match tryReadVarNumber buffer begin end_ with
    | none => .error (.tlvError "Insufficient data during TLV processing")
    | some r => .ok r

/-- Modelled from the spec: the throwing `tlv::readType(begin, end)` of the missing
tlv.hpp. -/
def readType (buffer : Buffer) (begin end_ : Nat) : Except Error (Nat × Nat) :=
  match readVarNumber buffer begin end_ with
  | .error e => .error e
  | .ok (type, next) =>
    if type > 4294967295 then .error (.tlvError "TLV type code exceeds allowable maximum")
    else .ok (type, next)

/-- Modelled from the spec: `tlv::writeVarNumber(os, varNumber)` of the missing tlv.hpp,
as the octets it appends to the stream: the canonical (shortest) encoding of the
`uint64_t` argument. -/
def writeVarNumber (varNumber : Nat) : List Byte :=
  let v := varNumber % 18446744073709551616
  if v < 253 then [byteOf v]
  else if v ≤ 65535 then [byteOf 253, byteOf (v / 256), byteOf v]
  else if v ≤ 4294967295 then
    [byteOf 254, byteOf (v / 16777216), byteOf (v / 65536), byteOf (v / 256), byteOf v]
  else
    [byteOf 255, byteOf (v / 72057594037927936), byteOf (v / 281474976710656),
      byteOf (v / 1099511627776), byteOf (v / 4294967296), byteOf (v / 16777216),
      byteOf (v / 65536), byteOf (v / 256), byteOf v]

/-- Modelled from the spec: `tlv::sizeOfVarNumber(varNumber)` of the missing tlv.hpp: the
encoded length of the `uint64_t` argument. -/
def sizeOfVarNumber (varNumber : Nat) : Nat :=
  let v := varNumber % 18446744073709551616
  if v < 253 then 1
  else if v ≤ 65535 then 3
  else if v ≤ 4294967295 then 5
  else 9

end tlv

/-- `MAX_SIZE_OF_BLOCK_FROM_STREAM`, block.cpp line 46. -/
def MAX_SIZE_OF_BLOCK_FROM_STREAM : Nat := 8800

/-- Modelled from the spec: the class declaration of the missing block.hpp, with the
members that block.cpp initialises and section 3 of the specification lists.
Iterators are offsets into `m_buffer`; a default-constructed iterator is offset 0 and a
null `m_buffer` is `none`; sizes are unbounded naturals. -/
structure Block where
  m_buffer : Option Buffer
  m_type : Nat
  m_begin : Nat
  m_end : Nat
  m_size : Nat
  m_value_begin : Nat
  m_value_end : Nat
  m_subBlocks : List Block

/-- What a member function that may throw leaves behind: it returned, or it threw with
the object in the given state, or (for a loop run on fuel) it did not finish. -/
inductive Outcome where
  | returned (self : Block)
  | threw (e : Error) (self : Block)
  | diverged

namespace Block

/-- The octets of the backing buffer (none when `m_buffer` is null). -/
def bytes (b : Block) : Buffer := b.m_buffer.getD []

/-- Modelled from the spec: `Block::hasWire()` of the missing block.hpp: the Block is
wire-backed, it has a backing buffer and a non-empty element range. -/
def hasWire (b : Block) : Bool := b.m_buffer.isSome && b.m_begin != b.m_end

/-- Modelled from the spec: `Block::hasValue()` of the missing block.hpp: the Block has a
backing buffer. -/
def hasValue (b : Block) : Bool := b.m_buffer.isSome

/-- Modelled from the spec: `Block::type()` of the missing block.hpp, a `uint32_t`. -/
def type (b : Block) : Nat := b.m_type % 4294967296

/-- Modelled from the spec: `Block::value_size()` of the missing block.hpp: the length of
the value range, 0 without a buffer. -/
def value_size (b : Block) : Nat :=
  if !b.hasValue then 0 else b.m_value_end - b.m_value_begin

/-- Modelled from the spec: `Block::size()` of the missing block.hpp: the cached size of
the whole element, an error when the Block has neither wire nor value. -/
def size (b : Block) : Except Error Nat :=
  if b.hasWire || b.hasValue then .ok b.m_size
  else .error (.blockError "Block size cannot be determined (undefined block size)")

/-- Modelled from the spec: `Block::value()` of the missing block.hpp points at
`m_value_begin`; these are the octets `[value(), value() + value_size())` that
`encode` copies. -/
def valueBytes (b : Block) : List Byte :=
  ((b.bytes).drop b.m_value_begin).take b.value_size

/-- Modelled from the spec: `Block::wire()` of the missing block.hpp points at
`m_begin`; these are the octets `[wire(), wire() + size())` of a wire-backed Block. -/
def wireBytes (b : Block) : List Byte :=
  ((b.bytes).drop b.m_begin).take b.m_size

/-- `Block::Block()`, block.cpp line 48: the type is the unset sentinel. -/
def default : Block :=
  { m_buffer := none, m_type := 4294967295, m_begin := 0, m_end := 0, m_size := 0,
    m_value_begin := 0, m_value_end := 0, m_subBlocks := [] }

/-- `Block::Block(wire, type, begin, end, valueBegin, valueEnd)`, block.cpp line 70. -/
def ofRanges (wire : Option Buffer) (type begin end_ valueBegin valueEnd : Nat) : Block :=
  { m_buffer := wire, m_type := type, m_begin := begin, m_end := end_,
    m_size := end_ - begin, m_value_begin := valueBegin, m_value_end := valueEnd,
    m_subBlocks := [] }

/-- `Block::Block(const ConstBufferPtr& buffer)`, block.cpp line 84: the validating
construction from an encoded buffer. -/
def ofBuffer (buffer : Buffer) : Except Error Block :=
  let m_begin := 0
  let m_end := buffer.length
  match tlv.readType buffer m_begin m_end with
  | .error e => .error e
  | .ok (m_type, afterType) =>
    match tlv.readVarNumber buffer afterType m_end with
    | .error e => .error e
    | .ok (length, m_value_begin) =>
      if length ≠ m_end - m_value_begin then
        .error (.tlvError "TLV length doesn't match buffer length")
      else
        .ok { m_buffer := some buffer, m_type := m_type, m_begin := m_begin, m_end := m_end,
              m_size := m_end - m_begin, m_value_begin := m_value_begin,
              m_value_end := m_end, m_subBlocks := [] }

/-- `Block::Block(const uint8_t* buffer, size_t maxlength)`, block.cpp line 124: the
octets readable at the pointer are `buffer`, of which the first `maxlength` may be
used. -/
def ofRaw (buffer : List Byte) (maxlength : Nat) : Except Error Block :=
  let tmp_end := maxlength
  match tlv.readType buffer 0 tmp_end with
  | .error e => .error e
  | .ok (m_type, afterType) =>
    match tlv.readVarNumber buffer afterType tmp_end with
    | .error e => .error e
    | .ok (length, tmp_begin) =>
      if length > tmp_end - tmp_begin then
        .error (.tlvError "Not enough data in the buffer to fully parse TLV")
      else
        let m_buffer : Buffer := buffer.take (tmp_begin + length)
        .ok { m_buffer := some m_buffer, m_type := m_type, m_begin := 0,
              m_end := m_buffer.length, m_size := m_buffer.length - 0,
              m_value_begin := 0 + tmp_begin, m_value_end := m_buffer.length,
              m_subBlocks := [] }

/-- `Block::Block(uint32_t type)`, block.cpp line 172. -/
def ofType (type : Nat) : Block :=
  { default with m_type := type }

/-- `Block::Block(uint32_t type, const ConstBufferPtr& value)`, block.cpp line 177. -/
def ofTypeValue (type : Nat) (value : Buffer) : Block :=
  let b : Block :=
    { m_buffer := some value, m_type := type, m_begin := value.length,
      m_end := value.length, m_size := 0, m_value_begin := 0,
      m_value_end := value.length, m_subBlocks := [] }
  { b with m_size := tlv.sizeOfVarNumber b.m_type + tlv.sizeOfVarNumber b.value_size
                      + b.value_size }

/-- `Block::fromBuffer(ConstBufferPtr buffer, size_t offset)`, block.cpp line 225. -/
def fromBuffer (buffer : Buffer) (offset : Nat) : Bool × Block :=
  let tempBegin := 0 + offset
  match tlv.tryReadType buffer tempBegin buffer.length with
  | none => (false, default)
  | some (type, afterType) =>
    match tlv.tryReadVarNumber buffer afterType buffer.length with
    | none => (false, default)
    | some (length, tempBegin) =>
      if length > buffer.length - tempBegin then (false, default)
      else (true, ofRanges (some buffer) type (0 + offset) (tempBegin + length)
                    tempBegin (tempBegin + length))

/-- `Block::fromBuffer(const uint8_t* buffer, size_t maxSize)`, block.cpp line 248. -/
def fromBufferRaw (buffer : List Byte) (maxSize : Nat) : Bool × Block :=
  let tempEnd := maxSize
  match tlv.tryReadType buffer 0 tempEnd with
  | none => (false, default)
  | some (type, afterType) =>
    match tlv.tryReadVarNumber buffer afterType tempEnd with
    | none => (false, default)
    | some (length, tempBegin) =>
      if length > tempEnd - tempBegin then (false, default)
      else
        let sharedBuffer : Buffer := buffer.take (tempBegin + length)
        (true, ofRanges (some sharedBuffer) type 0 sharedBuffer.length
                 (0 + (tempBegin - 0)) sharedBuffer.length)

/-- `Block::resetWire()`, block.cpp line 284: drops the buffer and the ranges, keeps the
type and the sub-blocks. -/
def resetWire (b : Block) : Block :=
  { b with m_buffer := none, m_begin := 0, m_end := 0, m_value_begin := 0,
           m_value_end := 0 }

/-- The `while (begin != end)` loop of `Block::parse()`, block.cpp line 303, run on
fuel: `none` when the fuel runs out, else the error thrown (if any) and `m_subBlocks`
as the loop leaves it. -/
def parseLoop (m_buffer : Option Buffer) (end_ : Nat) :
    Nat → Nat → List Block → Option (Option Error × List Block)
  | fuel, begin, m_subBlocks =>
    if begin = end_ then some (none, m_subBlocks)
    else
      match fuel with
      | 0 => none
      | fuel + 1 =>
        let element_begin := begin
        match tlv.readType (m_buffer.getD []) begin end_ with
        | .error e => some (some e, m_subBlocks)
        | .ok (type, afterType) =>
          match tlv.readVarNumber (m_buffer.getD []) afterType end_ with
          | .error e => some (some e, m_subBlocks)
          | .ok (length, begin) =>
            if length > end_ - begin then
              some (some (.tlvError "TLV length exceeds buffer length"), [])
            else
              let element_end := begin + length
              parseLoop m_buffer end_ fuel element_end
                (m_subBlocks ++
                  [ofRanges m_buffer type element_begin element_end begin element_end])

/-- `Block::parse()`, block.cpp line 294.  The loop consumes at least one octet per
iteration, so the value size is fuel enough. -/
def parse (b : Block) : Outcome :=
  if !b.m_subBlocks.isEmpty || b.value_size == 0 then .returned b
  else
    match parseLoop b.m_buffer b.m_value_end b.value_size b.m_value_begin b.m_subBlocks with
    | none => .diverged
    | some (none, subBlocks) => .returned { b with m_subBlocks := subBlocks }
    | some (some e, subBlocks) => .threw e { b with m_subBlocks := subBlocks }

/-- The first loop of `Block::encode()`, block.cpp line 348: `valueSize += i->size()`. -/
def encodeValueSize : List Block → Nat → Except Error Nat
  | [], valueSize => .ok valueSize
  | i :: rest, valueSize =>
    match i.size with
    | .error e => .error e
    | .ok s => encodeValueSize rest (valueSize + s)

/-- The second loop of `Block::encode()`, block.cpp line 354, appending to the stream
`os`. -/
def encodeSubBlocks : List Block → List Byte → Except Error (List Byte)
  | [], os => .ok os
  | i :: rest, os =>
    if i.hasWire then encodeSubBlocks rest (os ++ i.wireBytes)
    else if i.hasValue then
      encodeSubBlocks rest
        (os ++ tlv.writeVarNumber i.type ++ tlv.writeVarNumber i.value_size ++ i.valueBytes)
    else .error (.blockError "Underlying value buffer is empty")

/-- The octets `Block::encode()` writes to its stream, block.cpp lines 333 to 365. -/
def encodeStream (b : Block) : Except Error (List Byte) :=
  let os := tlv.writeVarNumber b.type
  if b.hasValue then
    .ok (os ++ tlv.writeVarNumber b.value_size ++ b.valueBytes)
  else if b.m_subBlocks.length = 0 then
    .ok (os ++ tlv.writeVarNumber 0)
  else
    match encodeValueSize b.m_subBlocks 0 with
    | .error e => .error e
    | .ok valueSize => encodeSubBlocks b.m_subBlocks (os ++ tlv.writeVarNumber valueSize)

/-- `Block::encode()`, block.cpp line 327.  A throw while the stream is written leaves
the Block untouched; the ranges are then re-derived by reading the header back. -/
def encode (b : Block) : Outcome :=
  if b.hasWire then .returned b
  else
    match encodeStream b with
    | .error e => .threw e b
    | .ok os =>
      let b1 : Block :=
        { b with m_buffer := some os, m_begin := 0, m_end := os.length,
                 m_size := os.length - 0, m_value_begin := 0, m_value_end := os.length }
      match tlv.readType os b1.m_value_begin b1.m_value_end with
      | .error e => .threw e b1
      | .ok (_, afterType) =>
        match tlv.readVarNumber os afterType b1.m_value_end with
        | .error e => .threw e { b1 with m_value_begin := afterType }
        | .ok (_, valueBegin) => .returned { b1 with m_value_begin := valueBegin }

/-- `std::remove_if` followed by the `resize` to the returned iterator: the elements
for which the predicate is false, in their order. -/
def removeIf (pred : Block → Bool) (l : List Block) : List Block :=
  l.filter (fun x => !pred x)

/-- `Block::remove(uint32_t type)`, block.cpp line 399. -/
def remove (b : Block) (type : Nat) : Block :=
  let b1 := b.resetWire
  { b1 with m_subBlocks := removeIf (fun subBlock => subBlock.type != type) b1.m_subBlocks }

/-- The sub-blocks tile the range `[start, stop)` of the buffer `wire`: each is a
non-empty element range of that buffer beginning where the previous one ended, the
first at `start` and the last ending at `stop`, its value range inside its element
range, its cached size the length of its element range. -/
def tiles (wire : Option Buffer) (start stop : Nat) : List Block → Prop
  | [] => start = stop
  | c :: cs =>
    c.m_buffer = wire ∧ c.m_begin = start ∧ c.m_begin < c.m_value_begin ∧
    c.m_value_begin ≤ c.m_value_end ∧ c.m_value_end = c.m_end ∧ c.m_end ≤ stop ∧
    c.m_size = c.m_end - c.m_begin ∧ tiles wire c.m_end stop cs

/-- The octets one iteration of the second loop of `encode()` writes for the
sub-block `i` when it has a wire or a value: its stored element octets if it is
wire-backed, else its type, its value length and its value octets. -/
def subBlockOctets (i : Block) : List Byte :=
  if i.hasWire then i.wireBytes
  else tlv.writeVarNumber i.type ++ tlv.writeVarNumber i.value_size ++ i.valueBytes

/-- An encoded element of type 7 holding three children, of types 1, 2 and 1. -/
def exampleWire : Buffer :=
  [0x07, 0x09, 0x01, 0x01, 0xAA, 0x02, 0x01, 0xBB, 0x01, 0x01, 0xCC]

/-- The Block that `Block(buffer)` builds on `exampleWire`. -/
def exampleBlock : Block :=
  { m_buffer := some exampleWire, m_type := 7, m_begin := 0, m_end := 11, m_size := 11,
    m_value_begin := 2, m_value_end := 11, m_subBlocks := [] }

/-- The Block `exampleBlock` after `parse()`. -/
def exampleParsed : Block :=
  { exampleBlock with
    m_subBlocks := [ofRanges (some exampleWire) 1 2 5 4 5,
                    ofRanges (some exampleWire) 2 5 8 7 8,
                    ofRanges (some exampleWire) 1 8 11 10 11] }

/-- A structured Block of type 7 whose only child, of type 3, has neither wire nor
value. -/
def exampleUnencodable : Block :=
  { ofType 7 with m_subBlocks := [ofType 3] }

/-- Modelled from the spec: `Block::begin()` of the missing block.hpp: the start of the
range of the whole-element octets, valid only when the Block is wire-backed. -/
def begin (b : Block) : Except Error Nat :=
  if !b.hasWire then .error (.blockError "Underlying wire buffer is empty")
  else .ok b.m_begin

/-- Modelled from the spec: `Block::end()` of the missing block.hpp: the end of the range
of the whole-element octets, valid only when the Block is wire-backed. -/
def end_ (b : Block) : Except Error Nat :=
  if !b.hasWire then .error (.blockError "Underlying wire buffer is empty")
  else .ok b.m_end

/-- `Block::Block(uint32_t type, const Block& value)`, block.cpp line 188: the value
range is `[value.begin(), value.end())`.  The members are initialised in the order of
their declaration, so `m_begin(m_buffer->end())` of line 191 runs before
`value.begin()` of line 193: with a null buffer in `value` it dereferences a null
pointer, which is undefined behaviour and modelled as `none`; otherwise the result is
what the constructor builds or the `Block::Error` that `value.begin()` throws. -/
def ofTypeBlock (type : Nat) (value : Block) : Option (Except Error Block) :=
  match value.m_buffer with
  | none => none
  | some m_buffer =>
    some <|
      match value.begin with
      | .error e => .error e
      | .ok valueBegin =>
        match value.end_ with
        | .error e => .error e
        | .ok valueEnd =>
          let b : Block :=
            { m_buffer := some m_buffer, m_type := type, m_begin := m_buffer.length,
              m_end := m_buffer.length, m_size := 0, m_value_begin := valueBegin,
              m_value_end := valueEnd, m_subBlocks := [] }
          .ok { b with m_size := tlv.sizeOfVarNumber b.m_type
                                  + tlv.sizeOfVarNumber b.value_size + b.value_size }

/-- `std::find_if` on the children, as the position of the iterator it returns: that
of the first element satisfying the predicate, or the length of the list for `end()`. -/
def find_if (pred : Block → Bool) : List Block → Nat
  | [] => 0
  | x :: xs => if pred x then 0 else find_if pred xs + 1

/-- `Block::find(uint32_t type)`, block.cpp line 392. -/
def find (b : Block) (type : Nat) : Nat :=
  find_if (fun subBlock => subBlock.type == type) b.m_subBlocks

/-- `Block::get(uint32_t type)`, block.cpp line 381. -/
def get (b : Block) (type : Nat) : Except Error Block :=
  let it := b.find type
  if it ≠ b.m_subBlocks.length then .ok (b.m_subBlocks.getD it Block.default)
  else
    .error (.blockError ("(Block::get) Requested a non-existed type [" ++ toString type
      ++ "] from Block"))

/-- `Block::blockFromValue()`, block.cpp line 409. -/
def blockFromValue (b : Block) : Except Error Block :=
  if b.value_size = 0 then .error (.blockError "Underlying value buffer is empty")
  else
    let end_ := b.m_value_end
    let element_begin := b.m_value_begin
    match tlv.readType b.bytes b.m_value_begin end_ with
    | .error e => .error e
    | .ok (type, afterType) =>
      match tlv.readVarNumber b.bytes afterType end_ with
      | .error e => .error e
      | .ok (length, begin) =>
        if length ≠ end_ - begin then
          .error (.tlvError "TLV length mismatches buffer length")
        else .ok (ofRanges b.m_buffer type element_begin end_ begin end_)

/-- `std::equal(first1, last1, first2)`: the octets of the first range against those
that start at `first2`, stopping at the first difference (reading past the end of the
second buffer is modelled as a difference). -/
def stdEqual : List Byte → List Byte → Bool
  | [], _ => true
  | _ :: _, [] => false
  | x :: xs, y :: ys => x == y && stdEqual xs ys

/-- `Block::operator==`, block.cpp line 432. -/
def operatorEq (a other : Block) : Except Error Bool :=
  match a.size with
  | .error e => .error e
  | .ok thisSize =>
    match other.size with
    | .error e => .error e
    | .ok otherSize =>
      if thisSize ≠ otherSize then .ok false
      else
        match a.begin with
        | .error e => .error e
        | .ok first1 =>
          match a.end_ with
          | .error e => .error e
          | .ok last1 =>
            match other.begin with
            | .error e => .error e
            | .ok first2 =>
              .ok (stdEqual (range a.bytes first1 last1) (other.bytes.drop first2))

/-- Modelled from the spec: `dataBlock(type, data, dataSize)` of the missing
block-helpers.hpp: the wire-backed Block of the given type whose value is the
`dataSize` octets at `data`. -/
def dataBlock (type : Nat) (data : List Byte) (dataSize : Nat) : Except Error Block :=
  ofBuffer (tlv.writeVarNumber type ++ tlv.writeVarNumber dataSize ++ data.take dataSize)

/-- The octets that formatted input skips as leading whitespace (the classic locale):
09 to 0D and 20. -/
def isSpace (b : Byte) : Bool := (9 ≤ b.val && b.val ≤ 13) || b.val == 32

/-- One formatted extraction `is >> octet`, which a `std::istream_iterator<uint8_t>`
performs when it is constructed and at each increment: with the `skipws` flag of the
stream set (the default) leading whitespace is dropped first; `none` when no octet is
left, the stream is then exhausted and in a failed state. -/
def extractOctet (skipws : Bool) (is : List Byte) : Option (Byte × List Byte) :=
  match (if skipws then is.dropWhile isSpace else is) with
  | [] => none
  | b :: rest => some (b, rest)

/-- The octets a `std::istream_iterator<uint8_t>` delivers over the source `is`, one
per successful extraction. -/
def iteratorOctets (skipws : Bool) (is : List Byte) : List Byte :=
  if skipws then is.filter (fun b => !isSpace b) else is

/-- What the stream still holds after the iterator made `n` extractions; nothing can
be read any more once an extraction failed. -/
def streamAfter (skipws : Bool) : Nat → List Byte → List Byte
  | 0, is => is
  | n + 1, is =>
    match extractOctet skipws is with
    | none => []
    | some (_, rest) => streamAfter skipws n rest

/-- The octet `*it` of a `std::istream_iterator<uint8_t>` that has advanced `pos`
times over the octets `seen` it can deliver: the octet at that position or, once the
source is exhausted, the octet the iterator last held (0 if it never held one). -/
def istreamDeref (seen : List Byte) (pos : Nat) : Byte :=
  match seen.drop pos with
  | b :: _ => b
  | [] => seen.getLastD 0

/-- `Block::fromStream(std::istream& is)`, block.cpp line 199, on a stream with the
given `skipws` flag that delivers the octets `is` and then ends.  The header is read
through the iterator, by formatted extractions; the iterator reads one octet ahead,
so after a header of `tmp_begin` octets it has made `tmp_begin + 1` extractions and
holds the first octet that follows (or is at the end); `is.read` then continues
unformatted behind it.  `length - 1` as a `std::streamsize` is negative for a length
of 0 and then nothing is read. -/
def fromStream (skipws : Bool) (is : List Byte) : Except Error Block :=
  let seen := iteratorOctets skipws is
  match tlv.readType seen 0 seen.length with
  | .error e => .error e
  | .ok (type, afterType) =>
    match tlv.readVarNumber seen afterType seen.length with
    | .error e => .error e
    | .ok (length, tmp_begin) =>
      if length > MAX_SIZE_OF_BLOCK_FROM_STREAM then
        .error (.tlvError "Length of block from stream is too large")
      else
        let buf0 := istreamDeref seen tmp_begin
        let count := if length = 0 then 0 else length - 1
        let read := (streamAfter skipws (tmp_begin + 1) is).take count
        let gcount := read.length
        if length ≠ gcount + 1 then
          .error (.tlvError "Not enough data in the buffer to fully parse TLV")
        else dataBlock type (buf0 :: read) length

/-- The element range of the Block lies in its buffer and the cached size is the
length of that range. -/
def wireWellFormed (b : Block) : Prop :=
  b.m_begin ≤ b.m_end ∧ b.m_end ≤ b.bytes.length ∧ b.m_size = b.m_end - b.m_begin

/-- The element range and the value range of the child `c` lie in `[lo, hi)`, after a
header of at least two octets. -/
def insideRange (lo hi : Nat) (c : Block) : Prop :=
  lo ≤ c.m_begin ∧ c.m_begin + 2 ≤ c.m_value_begin ∧ c.m_value_begin ≤ c.m_value_end ∧
  c.m_value_end = c.m_end ∧ c.m_end ≤ hi

/-- The Block that `Block(buffer)` builds on the octets 05 02 01 02. -/
def exampleLeaf : Block :=
  { m_buffer := some [0x05, 0x02, 0x01, 0x02], m_type := 5, m_begin := 0, m_end := 4,
    m_size := 4, m_value_begin := 2, m_value_end := 4, m_subBlocks := [] }

end Block

end ndn

/-! ## The variable-length number codec -/

namespace ndn

namespace tlv

@[simp] theorem byteOf_val (n : Nat) : (byteOf n).val = n % 256 := rfl

theorem writeVarNumber_length (n : Nat) :
    (writeVarNumber n).length = sizeOfVarNumber n := by
  unfold writeVarNumber sizeOfVarNumber
  simp only []
  split_ifs <;> rfl

theorem sizeOfVarNumber_pos (n : Nat) : 1 ≤ sizeOfVarNumber n := by
  unfold sizeOfVarNumber
  simp only []
  split_ifs <;> omega

/-- Reading back what `writeVarNumber` wrote gives the number (as a `uint64_t`) and
consumes exactly the octets written, whatever follows them. -/
theorem decodeVarNumber_writeVarNumber (n : Nat) (rest : List Byte) :
    decodeVarNumber (writeVarNumber n ++ rest)
      = some (n % 18446744073709551616, sizeOfVarNumber n) := by
  have hlt : n % 18446744073709551616 < 18446744073709551616 :=
    Nat.mod_lt _ (by decide)
  unfold writeVarNumber sizeOfVarNumber
  simp only []
  generalize n % 18446744073709551616 = v at hlt
  by_cases h1 : v < 253
  · have : v % 256 = v := by omega
    simp [h1, decodeVarNumber, this]
  · by_cases h2 : v ≤ 65535
    · simp [h1, h2, decodeVarNumber]
      omega
    · by_cases h3 : v ≤ 4294967295
      · simp [h1, h2, h3, decodeVarNumber]
        omega
      · simp [h1, h2, h3, decodeVarNumber]
        omega

/-- A successful decoding consumes at least one octet and no more than there are. -/
theorem decodeVarNumber_consumed {l : List Byte} {v c : Nat}
    (h : decodeVarNumber l = some (v, c)) : 1 ≤ c ∧ c ≤ l.length := by
  unfold decodeVarNumber at h
  split at h
  · simp at h
  · split_ifs at h
    · simp at h; simp; omega
    · split at h
      · simp at h; simp; omega
      · simp at h
    · split at h
      · simp at h; simp; omega
      · simp at h
    · split at h
      · simp at h; simp; omega
      · simp at h

/-- The throwing and the non-throwing reading of a number succeed together, with the
same result. -/
theorem readVarNumber_eq_ok_iff (buffer : Buffer) (b e : Nat) (r : Nat × Nat) :
    readVarNumber buffer b e = .ok r ↔ tryReadVarNumber buffer b e = some r := by
  unfold readVarNumber tryReadVarNumber
  by_cases h : range buffer b e = []
  · simp [h, decodeVarNumber]
  · simp only [h, if_false]
    cases decodeVarNumber (range buffer b e) with
    | none => simp
    | some p => simp

theorem readVarNumber_error_iff (buffer : Buffer) (b e : Nat) :
    (∃ err, readVarNumber buffer b e = .error err) ↔ tryReadVarNumber buffer b e = none := by
  unfold readVarNumber tryReadVarNumber
  by_cases h : range buffer b e = []
  · simp [h, decodeVarNumber]
  · simp only [h, if_false]
    cases decodeVarNumber (range buffer b e) with
    | none => simp
    | some p => simp

/-- The throwing and the non-throwing reading of a type succeed together, with the same
result. -/
theorem readType_eq_ok_iff (buffer : Buffer) (b e : Nat) (r : Nat × Nat) :
    readType buffer b e = .ok r ↔ tryReadType buffer b e = some r := by
  unfold readType tryReadType
  cases h : readVarNumber buffer b e with
  | error err =>
    have : tryReadVarNumber buffer b e = none :=
      (readVarNumber_error_iff buffer b e).1 ⟨err, h⟩
    simp [this]
  | ok p =>
    have : tryReadVarNumber buffer b e = some p :=
      (readVarNumber_eq_ok_iff buffer b e p).1 h
    simp only [this]
    split_ifs <;> simp

theorem readType_error_iff (buffer : Buffer) (b e : Nat) :
    (∃ err, readType buffer b e = .error err) ↔ tryReadType buffer b e = none := by
  cases h : readType buffer b e with
  | error err =>
    cases h2 : tryReadType buffer b e with
    | none => simp
    | some r => rw [← readType_eq_ok_iff, h] at h2; cases h2
  | ok p =>
    have := (readType_eq_ok_iff buffer b e p).1 h
    simp [this]

/-- Every error of the throwing readers is a `tlv::Error`. -/
theorem readVarNumber_error_isFormatError {buffer : Buffer} {b e : Nat} {err : Error}
    (h : readVarNumber buffer b e = .error err) : err.isFormatError = true := by
  unfold readVarNumber at h
  split_ifs at h
  · cases h; rfl
  · split at h
    · cases h; rfl
    · cases h

theorem readType_error_isFormatError {buffer : Buffer} {b e : Nat} {err : Error}
    (h : readType buffer b e = .error err) : err.isFormatError = true := by
  unfold readType at h
  split at h
  · next e1 h1 => cases h; exact readVarNumber_error_isFormatError h1
  · split_ifs at h
    · cases h; rfl

end tlv

end ndn

/-! ## Iterator ranges -/

namespace ndn

theorem range_length (buffer : Buffer) (b e : Nat) :
    (range buffer b e).length = min e buffer.length - b := by
  simp [range]

theorem range_zero_length (buffer : Buffer) : range buffer 0 buffer.length = buffer := by
  simp [range]

theorem range_to_length (buffer : Buffer) (b : Nat) :
    range buffer b buffer.length = buffer.drop b := by
  simp [range]

theorem range_drop (buffer : Buffer) (b e k : Nat) :
    (range buffer b e).drop k = range buffer (b + k) e := by
  simp [range, List.drop_drop, Nat.add_comm]

theorem range_append_range (buffer : Buffer) {b k e : Nat} (h1 : b ≤ k) (h2 : k ≤ e) :
    range buffer b k ++ range buffer k e = range buffer b e := by
  unfold range
  have hk : buffer.take k = (buffer.take e).take k := by
    rw [List.take_take, Nat.min_eq_left h2]
  rw [hk]
  generalize buffer.take e = l
  rw [List.drop_take]
  have : l.drop k = (l.drop b).drop (k - b) := by
    rw [List.drop_drop]; congr 1; omega
  rw [this, List.take_append_drop]

namespace tlv

/-- Decoding looks only at the octets it consumes: more octets behind them change
nothing. -/
theorem decodeVarNumber_append {l1 : List Byte} {r : Nat × Nat} (l2 : List Byte)
    (h : decodeVarNumber l1 = some r) : decodeVarNumber (l1 ++ l2) = some r := by
  unfold decodeVarNumber at h
  split at h
  · simp at h
  · next firstOctet rest =>
    split_ifs at h with h1 h2 h3
    · simp [decodeVarNumber, h1, h]
    · split at h
      · simp [decodeVarNumber, h1, h2, h]
      · simp at h
    · split at h
      · simp [decodeVarNumber, h1, h2, h3, h]
      · simp at h
    · split at h
      · simp [decodeVarNumber, h1, h2, h3, h]
      · simp at h

/-- A successful read advances the iterator by at least one octet and keeps it inside
the range and the buffer. -/
theorem tryReadVarNumber_bounds {buffer : Buffer} {b e v next : Nat}
    (h : tryReadVarNumber buffer b e = some (v, next)) :
    b + 1 ≤ next ∧ next ≤ e ∧ next ≤ buffer.length := by
  unfold tryReadVarNumber at h
  split at h
  · simp at h
  · next number consumed hd =>
    simp only [Option.some.injEq, Prod.mk.injEq] at h
    have := decodeVarNumber_consumed hd
    rw [range_length] at this
    omega

theorem readVarNumber_bounds {buffer : Buffer} {b e v next : Nat}
    (h : readVarNumber buffer b e = .ok (v, next)) :
    b + 1 ≤ next ∧ next ≤ e ∧ next ≤ buffer.length :=
  tryReadVarNumber_bounds ((readVarNumber_eq_ok_iff buffer b e (v, next)).1 h)

theorem readType_bounds {buffer : Buffer} {b e v next : Nat}
    (h : readType buffer b e = .ok (v, next)) :
    b + 1 ≤ next ∧ next ≤ e ∧ next ≤ buffer.length ∧ v ≤ 4294967295 := by
  unfold readType at h
  split at h
  · cases h
  · next type nxt h1 =>
    split_ifs at h with h2
    simp only [Except.ok.injEq, Prod.mk.injEq] at h
    have := readVarNumber_bounds h1
    omega

/-- A read that succeeds on a range succeeds with the same result on every longer
range of the same buffer. -/
theorem tryReadVarNumber_mono {buffer : Buffer} {b k e : Nat} {r : Nat × Nat}
    (hbk : b ≤ k) (hke : k ≤ e)
    (h : tryReadVarNumber buffer b k = some r) : tryReadVarNumber buffer b e = some r := by
  unfold tryReadVarNumber at h ⊢
  split at h
  · simp at h
  · next number consumed hd =>
    rw [← range_append_range buffer hbk hke, decodeVarNumber_append _ hd]
    exact h

theorem readVarNumber_mono {buffer : Buffer} {b k e : Nat} {r : Nat × Nat}
    (hbk : b ≤ k) (hke : k ≤ e)
    (h : readVarNumber buffer b k = .ok r) : readVarNumber buffer b e = .ok r :=
  (readVarNumber_eq_ok_iff buffer b e r).2
    (tryReadVarNumber_mono hbk hke ((readVarNumber_eq_ok_iff buffer b k r).1 h))

theorem readType_mono {buffer : Buffer} {b k e : Nat} {r : Nat × Nat}
    (hbk : b ≤ k) (hke : k ≤ e)
    (h : readType buffer b k = .ok r) : readType buffer b e = .ok r := by
  unfold readType at h ⊢
  split at h
  · cases h
  · next type nxt h1 =>
    rw [readVarNumber_mono hbk hke h1]
    exact h

end tlv

end ndn

/-! ## Construction from encoded octets -/

namespace ndn

namespace Block

/-- Every failure of the validating construction is a `tlv::Error`. -/
theorem ofBuffer_error_isFormatError {buffer : Buffer} {e : Error}
    (h : ofBuffer buffer = .error e) : e.isFormatError = true := by
  unfold ofBuffer at h
  simp only [] at h
  split at h
  · next e1 h1 => cases h; exact tlv.readType_error_isFormatError h1
  · split at h
    · next e2 h2 => cases h; exact tlv.readVarNumber_error_isFormatError h2
    · split_ifs at h
      cases h; rfl

/-- Every failure of the construction from a pointer is a `tlv::Error`. -/
theorem ofRaw_error_isFormatError {buffer : List Byte} {maxlength : Nat} {e : Error}
    (h : ofRaw buffer maxlength = .error e) : e.isFormatError = true := by
  unfold ofRaw at h
  simp only [] at h
  split at h
  · next e1 h1 => cases h; exact tlv.readType_error_isFormatError h1
  · split at h
    · next e2 h2 => cases h; exact tlv.readVarNumber_error_isFormatError h2
    · split_ifs at h
      cases h; rfl

/-- C6: the validating construction `Block(buffer)`, for a buffer whose front decodes
as a type `T` and a declared length `L`, fails (with a format error) exactly when `L`
differs from the number of octets after the header; on success the element range is
the whole buffer, the value range is everything after the header and the type is `T`.
The octets 05 02 01 02 give a Block of type 5 and value size 2. -/
theorem ofBuffer_validates :
    (∀ (buffer : Buffer) (T p1 L p2 : Nat),
      tlv.readType buffer 0 buffer.length = .ok (T, p1) →
      tlv.readVarNumber buffer p1 buffer.length = .ok (L, p2) →
      ((∃ e, ofBuffer buffer = .error e) ↔ L ≠ buffer.length - p2) ∧
      (∀ e, ofBuffer buffer = .error e →
        e = .tlvError "TLV length doesn't match buffer length" ∧ e.isFormatError = true) ∧
      (∀ b, ofBuffer buffer = .ok b →
        b.m_buffer = some buffer ∧ b.m_begin = 0 ∧ b.m_end = buffer.length ∧
        b.m_size = buffer.length ∧ b.wireBytes = buffer ∧
        b.m_value_begin = p2 ∧ b.m_value_end = buffer.length ∧
        b.valueBytes = buffer.drop p2 ∧ b.value_size = L ∧
        b.m_type = T ∧ b.type = T ∧ b.hasWire = true)) ∧
    (∃ b, ofBuffer [0x05, 0x02, 0x01, 0x02] = .ok b ∧ b.type = 5 ∧ b.value_size = 2) := by
  refine ⟨?_, ⟨_, rfl, rfl, rfl⟩⟩
  intro buffer T p1 L p2 hT hL
  have hb1 := tlv.readType_bounds hT
  have hb2 := tlv.readVarNumber_bounds hL
  by_cases hlen : L = buffer.length - p2
  · have hok : ofBuffer buffer = .ok
        { m_buffer := some buffer, m_type := T, m_begin := 0, m_end := buffer.length,
          m_size := buffer.length - 0, m_value_begin := p2, m_value_end := buffer.length,
          m_subBlocks := [] } := by
      simp [ofBuffer, hT, hL, hlen]
    refine ⟨?_, ?_, ?_⟩
    · simp [hok, hlen]
    · intro e he; rw [hok] at he; cases he
    · intro b hb
      rw [hok] at hb
      cases hb
      simp [wireBytes, valueBytes, value_size, hasValue, hasWire, bytes, type, hlen]
      omega
  · have herr : ofBuffer buffer
        = .error (.tlvError "TLV length doesn't match buffer length") := by
      simp [ofBuffer, hT, hL, hlen]
    refine ⟨?_, ?_, ?_⟩
    · simp [herr, hlen]
    · intro e he; rw [herr] at he; cases he; exact ⟨rfl, rfl⟩
    · intro b hb; rw [herr] at hb; cases hb

/-- The instance of C6 at the octets 05 02 01 02 (type 5, declared length 2). -/
theorem ofBuffer_validates_witness :
    ((∃ e, ofBuffer [0x05, 0x02, 0x01, 0x02] = .error e) ↔ 2 ≠ 4 - 2) ∧
    (∀ b, ofBuffer [0x05, 0x02, 0x01, 0x02] = .ok b →
      b.m_begin = 0 ∧ b.m_end = 4 ∧ b.m_value_begin = 2 ∧ b.m_value_end = 4 ∧
      b.m_type = 5) := by
  have h := ofBuffer_validates.1 [0x05, 0x02, 0x01, 0x02] 5 1 2 2 rfl rfl
  refine ⟨h.1, fun b hb => ?_⟩
  have h3 := h.2.2 b hb
  exact ⟨h3.2.1, h3.2.2.1, h3.2.2.2.2.2.1, h3.2.2.2.2.2.2.1, h3.2.2.2.2.2.2.2.2.2.1⟩

/-- C7: the construction `Block(buffer, maxlength)` from a pointer, for an input whose
front decodes as a type `T` and a declared length `L`, fails (with a format error)
exactly when `L` exceeds the octets left after the header; on success the Block owns a
new buffer holding the header octets followed by the first `L` value octets and
nothing else, its element is that whole buffer and its value is those `L` octets; and
every truncation of the complete element by one or more octets is rejected. -/
theorem ofRaw_validates (buffer : List Byte) (maxlength T p1 L p2 : Nat)
    (hmax : maxlength ≤ buffer.length)
    (hT : tlv.readType buffer 0 maxlength = .ok (T, p1))
    (hL : tlv.readVarNumber buffer p1 maxlength = .ok (L, p2)) :
    ((∃ e, ofRaw buffer maxlength = .error e) ↔ L > maxlength - p2) ∧
    (∀ e, ofRaw buffer maxlength = .error e →
      e = .tlvError "Not enough data in the buffer to fully parse TLV" ∧
      e.isFormatError = true) ∧
    (∀ b, ofRaw buffer maxlength = .ok b →
      b.m_buffer = some (range buffer 0 p2 ++ range buffer p2 (p2 + L)) ∧
      b.bytes.length = p2 + L ∧ b.m_begin = 0 ∧ b.m_end = p2 + L ∧ b.m_size = p2 + L ∧
      b.wireBytes = range buffer 0 p2 ++ range buffer p2 (p2 + L) ∧
      b.m_value_begin = p2 ∧ b.m_value_end = p2 + L ∧
      b.valueBytes = range buffer p2 (p2 + L) ∧ b.value_size = L ∧
      b.m_type = T ∧ b.type = T) ∧
    (L ≤ maxlength - p2 → ∀ k, k < p2 + L →
      ∃ e, ofRaw buffer k = .error e ∧ e.isFormatError = true) := by
  have hb1 := tlv.readType_bounds hT
  have hb2 := tlv.readVarNumber_bounds hL
  by_cases hlen : L > maxlength - p2
  · have herr : ofRaw buffer maxlength
        = .error (.tlvError "Not enough data in the buffer to fully parse TLV") := by
      simp [ofRaw, hT, hL, hlen]
    refine ⟨?_, ?_, ?_, ?_⟩
    · simp [herr, hlen]
    · intro e he; rw [herr] at he; cases he; exact ⟨rfl, rfl⟩
    · intro b hb; rw [herr] at hb; cases hb
    · intro h; omega
  · have hok : ofRaw buffer maxlength = .ok
        { m_buffer := some (buffer.take (p2 + L)), m_type := T, m_begin := 0,
          m_end := (buffer.take (p2 + L)).length,
          m_size := (buffer.take (p2 + L)).length - 0,
          m_value_begin := 0 + p2, m_value_end := (buffer.take (p2 + L)).length,
          m_subBlocks := [] } := by
      simp [ofRaw, hT, hL, hlen]
    have hsplit : range buffer 0 p2 ++ range buffer p2 (p2 + L) = buffer.take (p2 + L) := by
      rw [range_append_range buffer (Nat.zero_le _) (Nat.le_add_right _ _)]
      simp [range]
    have hlen2 : (buffer.take (p2 + L)).length = p2 + L := by
      rw [List.length_take]; omega
    refine ⟨?_, ?_, ?_, ?_⟩
    · simp [hok, hlen]
    · intro e he; rw [hok] at he; cases he
    · intro b hb
      rw [hok] at hb
      cases hb
      rw [hsplit]
      have hT32 : T % 4294967296 = T := Nat.mod_eq_of_lt (by omega)
      refine ⟨rfl, ?_, rfl, ?_, ?_, ?_, ?_, ?_, ?_, ?_, rfl, ?_⟩
      · simpa [bytes] using hlen2
      · exact hlen2
      · show (buffer.take (p2 + L)).length - 0 = p2 + L
        omega
      · simp [wireBytes, bytes]
      · show 0 + p2 = p2
        omega
      · exact hlen2
      · simp only [valueBytes, value_size, hasValue, bytes, Option.getD_some,
          Option.isSome_some, hlen2, range]
        simp [List.take_take]
        omega
      · simp only [value_size, hasValue, Option.isSome_some, hlen2]
        simp
      · exact hT32
    · intro _ k hk
      cases hres : ofRaw buffer k with
      | error e => exact ⟨e, rfl, ofRaw_error_isFormatError hres⟩
      | ok b =>
        exfalso
        unfold ofRaw at hres
        simp only [] at hres
        split at hres
        · cases hres
        · next T2 q1 hT2 =>
          split at hres
          · cases hres
          · next L2 q2 hL2 =>
            have hc1 := tlv.readType_bounds hT2
            have hc2 := tlv.readVarNumber_bounds hL2
            have hkmax : k ≤ maxlength := by omega
            have e1 := tlv.readType_mono (Nat.zero_le _) hkmax hT2
            rw [hT] at e1
            simp only [Except.ok.injEq, Prod.mk.injEq] at e1
            obtain ⟨rfl, rfl⟩ := e1
            have e2 := tlv.readVarNumber_mono (by omega) hkmax hL2
            rw [hL] at e2
            simp only [Except.ok.injEq, Prod.mk.injEq] at e2
            obtain ⟨rfl, rfl⟩ := e2
            split_ifs at hres with h5
            omega

end Block

end ndn

namespace ndn

namespace Block

/-- The instance of C7 at a complete element 05 02 01 02 followed by two more octets of
the caller: the Block owns the four octets of the element only, and each shorter
maximum length is rejected. -/
theorem ofRaw_validates_witness :
    (6 ≤ ([0x05, 0x02, 0x01, 0x02, 0x09, 0x09] : List Byte).length) ∧
    (∀ b, ofRaw [0x05, 0x02, 0x01, 0x02, 0x09, 0x09] 6 = .ok b →
      b.m_buffer = some [0x05, 0x02, 0x01, 0x02] ∧ b.valueBytes = [0x01, 0x02]) ∧
    (∀ k, k < 4 →
      ∃ e, ofRaw [0x05, 0x02, 0x01, 0x02, 0x09, 0x09] k = .error e ∧
        e.isFormatError = true) := by
  have h := ofRaw_validates [0x05, 0x02, 0x01, 0x02, 0x09, 0x09] 6 5 1 2 2
    (by decide) rfl rfl
  refine ⟨by decide, fun b hb => ?_, fun k hk => h.2.2.2 (by decide) k hk⟩
  have h3 := h.2.2.1 b hb
  exact ⟨h3.1, h3.2.2.2.2.2.2.2.2.1⟩

/-- C8: `fromBuffer(buffer, maxSize)` agrees with the throwing construction from the
same pointer and maximum length: it reports success exactly when the constructor does
not fail, then with the very same Block (type, element octets, value octets); when the
constructor fails it returns false with the default Block, whose type is the unset
sentinel. -/
theorem fromBufferRaw_agrees_ofRaw (buffer : List Byte) (maxSize : Nat) :
    (fromBufferRaw buffer maxSize =
      match ofRaw buffer maxSize with
      | .ok b => (true, b)
      | .error _ => (false, Block.default)) ∧
    ((fromBufferRaw buffer maxSize).1 = true ↔ ∃ b, ofRaw buffer maxSize = .ok b) ∧
    Block.default.m_type = 4294967295 ∧ Block.default.hasWire = false := by
  have key : fromBufferRaw buffer maxSize =
      match ofRaw buffer maxSize with
      | .ok b => (true, b)
      | .error _ => (false, Block.default) := by
    unfold fromBufferRaw ofRaw
    simp only []
    cases hT : tlv.readType buffer 0 maxSize with
    | error e =>
      have := (tlv.readType_error_iff buffer 0 maxSize).1 ⟨e, hT⟩
      simp [this]
    | ok r =>
      obtain ⟨T, p1⟩ := r
      have hT2 := (tlv.readType_eq_ok_iff buffer 0 maxSize (T, p1)).1 hT
      simp only [hT2]
      cases hL : tlv.readVarNumber buffer p1 maxSize with
      | error e =>
        have := (tlv.readVarNumber_error_iff buffer p1 maxSize).1 ⟨e, hL⟩
        simp [this]
      | ok r2 =>
        obtain ⟨L, p2⟩ := r2
        have hL2 := (tlv.readVarNumber_eq_ok_iff buffer p1 maxSize (L, p2)).1 hL
        simp only [hL2]
        by_cases hlen : L > maxSize - p2
        · simp [hlen]
        · simp [hlen, ofRanges]
  refine ⟨key, ?_, rfl, rfl⟩
  rw [key]
  cases ofRaw buffer maxSize with
  | error e => simp
  | ok b => simp

end Block

end ndn

namespace ndn

namespace Block

/-- What `fromBuffer(buffer, offset)` returns once the header at the offset decodes. -/
theorem fromBuffer_of_header {buffer : Buffer} {offset T p1 L p2 : Nat}
    (hT : tlv.readType buffer offset buffer.length = .ok (T, p1))
    (hL : tlv.readVarNumber buffer p1 buffer.length = .ok (L, p2)) :
    fromBuffer buffer offset =
      if L > buffer.length - p2 then (false, Block.default)
      else (true, ofRanges (some buffer) T offset (p2 + L) p2 (p2 + L)) := by
  have hT2 := (tlv.readType_eq_ok_iff buffer offset buffer.length (T, p1)).1 hT
  have hL2 := (tlv.readVarNumber_eq_ok_iff buffer p1 buffer.length (L, p2)).1 hL
  simp [fromBuffer, hT2, hL2]

/-- Without a decodable header `fromBuffer(buffer, offset)` reports failure. -/
theorem fromBuffer_success_header {buffer : Buffer} {offset : Nat}
    (h : (fromBuffer buffer offset).1 = true) :
    ∃ T p1 L p2, tlv.readType buffer offset buffer.length = .ok (T, p1) ∧
      tlv.readVarNumber buffer p1 buffer.length = .ok (L, p2) ∧
      L ≤ buffer.length - p2 := by
  unfold fromBuffer at h
  simp only [Nat.zero_add] at h
  split at h
  · simp at h
  · next T p1 hT =>
    split at h
    · simp at h
    · next L p2 hL =>
      split_ifs at h with hlen
      exact ⟨T, p1, L, p2, (tlv.readType_eq_ok_iff _ _ _ _).2 hT,
        (tlv.readVarNumber_eq_ok_iff _ _ _ _).2 hL, by omega⟩

/-- C9, as the code has it: on a buffer holding an element followed by one more octet
`fromBuffer(buffer, 0)` reports success while the validating constructor
`Block(buffer)` fails, so the two do not succeed on the same buffers. -/
theorem fromBuffer_ofBuffer_disagree :
    ¬ ((fromBuffer [0x05, 0x00, 0x09] 0).1 = true ↔
        ∃ b, ofBuffer [0x05, 0x00, 0x09] = .ok b) := by
  intro h
  have h1 : (fromBuffer [0x05, 0x00, 0x09] 0).1 = true := rfl
  obtain ⟨b, hb⟩ := h.1 h1
  have h2 : ofBuffer [0x05, 0x00, 0x09]
      = .error (.tlvError "TLV length doesn't match buffer length") := rfl
  rw [h2] at hb
  cases hb

/-- What `fromBuffer(buffer, offset)` returns when it reports failure: the default
Block. -/
theorem fromBuffer_failure {buffer : Buffer} {offset : Nat}
    (h : (fromBuffer buffer offset).1 = false) :
    fromBuffer buffer offset = (false, Block.default) := by
  unfold fromBuffer at h ⊢
  simp only [Nat.zero_add] at h ⊢
  split
  · rfl
  · next T p1 hT =>
    simp only [hT] at h
    split
    · rfl
    · next L p2 hL =>
      simp only [hL] at h
      split_ifs at h ⊢ with hlen
      rfl

/-- C9 amended: `fromBuffer(buffer, 0)` reports success exactly when the header decodes
and the declared length does not exceed the octets after it, while `Block(buffer)`
succeeds exactly when the header decodes and the declared length equals them; whenever
`Block(buffer)` succeeds, `fromBuffer(buffer, 0)` reports success with the very same
Block (type, element range, value range).  On success the Block of `fromBuffer` has
the decoded type, shares the buffer, and its element range and value range both end
where the declared length ends, octets that follow are not part of it; on failure the
default Block is returned. -/
theorem fromBuffer_ofBuffer (buffer : Buffer) :
    (∀ b, ofBuffer buffer = .ok b → fromBuffer buffer 0 = (true, b)) ∧
    ((fromBuffer buffer 0).1 = true ↔
      ∃ T p1 L p2, tlv.readType buffer 0 buffer.length = .ok (T, p1) ∧
        tlv.readVarNumber buffer p1 buffer.length = .ok (L, p2) ∧
        L ≤ buffer.length - p2) ∧
    ((∃ b, ofBuffer buffer = .ok b) ↔
      ∃ T p1 L p2, tlv.readType buffer 0 buffer.length = .ok (T, p1) ∧
        tlv.readVarNumber buffer p1 buffer.length = .ok (L, p2) ∧
        L = buffer.length - p2) ∧
    (∀ T p1 L p2, tlv.readType buffer 0 buffer.length = .ok (T, p1) →
      tlv.readVarNumber buffer p1 buffer.length = .ok (L, p2) →
      L ≤ buffer.length - p2 →
      ∃ b, fromBuffer buffer 0 = (true, b) ∧
        b.m_buffer = some buffer ∧ b.m_type = T ∧ b.type = T ∧
        b.m_begin = 0 ∧ b.m_end = p2 + L ∧ b.m_size = p2 + L ∧
        b.m_value_begin = p2 ∧ b.m_value_end = p2 + L ∧ b.value_size = L ∧
        b.hasWire = true ∧ b.m_subBlocks = [] ∧
        b.wireBytes = range buffer 0 (p2 + L) ∧
        b.valueBytes = range buffer p2 (p2 + L)) ∧
    ((fromBuffer buffer 0).1 = false → fromBuffer buffer 0 = (false, Block.default)) := by
  refine ⟨?_, ⟨fromBuffer_success_header, ?_⟩, ⟨?_, ?_⟩, ?_, fromBuffer_failure⟩
  · intro b hb
    unfold ofBuffer at hb
    simp only [] at hb
    split at hb
    · cases hb
    · next T p1 hT =>
      split at hb
      · cases hb
      · next L p2 hL =>
        split_ifs at hb with hlen
        simp only [Except.ok.injEq] at hb
        have hb2 := tlv.readVarNumber_bounds hL
        rw [fromBuffer_of_header hT hL, ← hb]
        simp only [not_not] at hlen
        have h1 : ¬ L > buffer.length - p2 := by omega
        have h2 : p2 + L = buffer.length := by omega
        simp [h1, h2, ofRanges]
  · rintro ⟨T, p1, L, p2, hT, hL, hlen⟩
    rw [fromBuffer_of_header hT hL]
    have h1 : ¬ L > buffer.length - p2 := by omega
    simp [h1]
  · rintro ⟨b, hb⟩
    unfold ofBuffer at hb
    simp only [] at hb
    split at hb
    · cases hb
    · next T p1 hT =>
      split at hb
      · cases hb
      · next L p2 hL =>
        split_ifs at hb with hlen
        simp only [not_not] at hlen
        exact ⟨T, p1, L, p2, hT, hL, hlen⟩
  · rintro ⟨T, p1, L, p2, hT, hL, hlen⟩
    cases h : ofBuffer buffer with
    | ok b => exact ⟨b, rfl⟩
    | error e => simp [ofBuffer, hT, hL, hlen] at h
  · intro T p1 L p2 hT hL hlen
    have hb1 := tlv.readType_bounds hT
    have hb2 := tlv.readVarNumber_bounds hL
    have h1 : ¬ L > buffer.length - p2 := by omega
    have hres : fromBuffer buffer 0
        = (true, ofRanges (some buffer) T 0 (p2 + L) p2 (p2 + L)) := by
      rw [fromBuffer_of_header hT hL, if_neg h1]
    have hvs : value_size (ofRanges (some buffer) T 0 (p2 + L) p2 (p2 + L)) = L := by
      simp [value_size, hasValue, ofRanges]
    have hT32 : T % 4294967296 = T := Nat.mod_eq_of_lt (by omega)
    refine ⟨_, hres, rfl, rfl, hT32, rfl, rfl, rfl, rfl, rfl, hvs, ?_, rfl, ?_, ?_⟩
    · simp only [hasWire, ofRanges, Option.isSome_some, Bool.true_and, bne_iff_ne, ne_eq]
      omega
    · simp [wireBytes, bytes, ofRanges, range]
    · simp only [valueBytes, hvs, range]
      rw [List.drop_take]
      have : p2 + L - p2 = L := by omega
      rw [this]
      rfl

/-- The instance of the amended C9 at the octets 05 02 01 02, and at the element 05 00
followed by the octet 09, which stays outside the Block. -/
theorem fromBuffer_ofBuffer_witness :
    fromBuffer [0x05, 0x02, 0x01, 0x02] 0 =
      (true, ofRanges (some [0x05, 0x02, 0x01, 0x02]) 5 0 4 2 4) ∧
    ∃ b, fromBuffer [0x05, 0x00, 0x09] 0 = (true, b) ∧ b.m_begin = 0 ∧ b.m_end = 2 ∧
      b.m_value_begin = 2 ∧ b.m_value_end = 2 ∧ b.wireBytes = [0x05, 0x00] ∧
      b.valueBytes = [] := by
  refine ⟨(fromBuffer_ofBuffer [0x05, 0x02, 0x01, 0x02]).1 _ rfl, ?_⟩
  obtain ⟨b, h1, _, _, _, h5, h6, _, h8, h9, _, _, _, h13, h14⟩ :=
    (fromBuffer_ofBuffer [0x05, 0x00, 0x09]).2.2.2.1 5 1 0 2 rfl rfl (by decide)
  exact ⟨b, h1, h5, h6, h8, h9, h13, h14⟩

end Block

end ndn

namespace ndn

namespace Block

/-- What `remove` leaves in the list: the sub-blocks whose type EQUALS the argument,
because the predicate handed to `std::remove_if` selects those whose type differs. -/
theorem remove_subBlocks (b : Block) (X : Nat) :
    (b.remove X).m_subBlocks = b.m_subBlocks.filter (fun c => c.type == X) := by
  simp only [remove, removeIf, resetWire]
  congr 1
  funext c
  simp [bne]

/-- C2, as the code has it: on the Block parsed from an element of type 7 holding
three children of types 1, 2, 1, `remove(1)` leaves the two children of type 1 and
drops the child of type 2, the opposite of removing the children of type 1. -/
theorem remove_keeps_only_matching :
    ∃ b b1, ofBuffer [0x07, 0x09, 0x01, 0x01, 0xAA, 0x02, 0x01, 0xBB, 0x01, 0x01, 0xCC]
        = .ok b ∧
      b.parse = .returned b1 ∧
      b1.m_subBlocks.map Block.type = [1, 2, 1] ∧
      (b1.remove 1).m_subBlocks.map Block.type = [1, 1] ∧
      (b1.remove 1).m_subBlocks.map Block.valueBytes = [[0xAA], [0xCC]] :=
  ⟨_, _, rfl, rfl, rfl, rfl, rfl⟩

/-- C3, as the code has it: on the Block built from 07 03 05 00 06 the scan reads a
first child (type 5, empty value), then meets a child header cut short after its type
octet; `parse()` throws from the reader and the child already read stays in the
children list. -/
theorem parse_failure_keeps_children :
    ∃ b b1, ofBuffer [0x07, 0x03, 0x05, 0x00, 0x06] = .ok b ∧
      b.m_subBlocks = [] ∧
      b.parse = .threw (.tlvError "Empty buffer during TLV processing") b1 ∧
      b1.m_subBlocks = [ofRanges (some [0x07, 0x03, 0x05, 0x00, 0x06]) 5 2 4 4 4] :=
  ⟨_, _, rfl, rfl, rfl, rfl⟩

end Block

end ndn

/-! ## The scan of `parse()` -/

namespace ndn

namespace Block

/-- When the loop of `parse()` ends normally, the sub-blocks it appended tile the range
it scanned. -/
theorem parseLoop_tiles (wire : Option Buffer) (e : Nat) :
    ∀ (fuel begin : Nat) (acc subs : List Block),
      parseLoop wire e fuel begin acc = some (none, subs) → begin ≤ e →
      ∃ new, subs = acc ++ new ∧ tiles wire begin e new := by
  intro fuel
  induction fuel with
  | zero =>
    intro begin acc subs h hle
    unfold parseLoop at h
    split_ifs at h with hbe
    simp only [Option.some.injEq, Prod.mk.injEq, true_and] at h
    exact ⟨[], by simp [h], hbe⟩
  | succ fuel ih =>
    intro begin acc subs h hle
    unfold parseLoop at h
    split_ifs at h with hbe
    · simp only [Option.some.injEq, Prod.mk.injEq, true_and] at h
      exact ⟨[], by simp [h], hbe⟩
    · simp only [] at h
      split at h
      · simp at h
      · next T p1 hT =>
        split at h
        · simp at h
        · next L p2 hL =>
          have hb1 := tlv.readType_bounds hT
          have hb2 := tlv.readVarNumber_bounds hL
          split_ifs at h with hlen
          · simp at h
          · obtain ⟨new, hsubs, htiles⟩ := ih (p2 + L) _ subs h (by omega)
            refine ⟨ofRanges wire T begin (p2 + L) p2 (p2 + L) :: new, ?_, ?_⟩
            · simpa using hsubs
            · refine ⟨rfl, rfl, ?_, ?_, rfl, ?_, rfl, htiles⟩
              · show begin < p2
                omega
              · show p2 ≤ p2 + L
                omega
              · show p2 + L ≤ e
                omega

/-- The loop of `parse()` finishes within `end - begin` iterations. -/
theorem parseLoop_fuel (wire : Option Buffer) (e : Nat) :
    ∀ (fuel begin : Nat) (acc : List Block), begin ≤ e → e - begin ≤ fuel →
      parseLoop wire e fuel begin acc ≠ none := by
  intro fuel
  induction fuel with
  | zero =>
    intro begin acc hle hfuel
    have : begin = e := by omega
    unfold parseLoop
    simp [this]
  | succ fuel ih =>
    intro begin acc hle hfuel
    unfold parseLoop
    split_ifs with hbe
    · simp
    · simp only []
      split
      · simp
      · next T p1 hT =>
        split
        · simp
        · next L p2 hL =>
          have hb1 := tlv.readType_bounds hT
          have hb2 := tlv.readVarNumber_bounds hL
          split_ifs with hlen
          · simp
          · exact ih (p2 + L) _ (by omega) (by omega)

/-- The model of `parse()` never runs out of fuel: the call returns or throws. -/
theorem parse_ne_diverged (b : Block) : b.parse ≠ .diverged := by
  unfold parse
  split_ifs with h
  · simp
  · simp only [Bool.or_eq_true, not_or, beq_iff_eq] at h
    have hvs : b.value_size = b.m_value_end - b.m_value_begin := by
      unfold value_size at h ⊢
      split_ifs at h ⊢ with h2
      · simp at h
      · rfl
    have hne := parseLoop_fuel b.m_buffer b.m_value_end b.value_size b.m_value_begin
      b.m_subBlocks (by omega) (by omega)
    split
    · next h3 => exact absurd h3 hne
    · simp
    · simp

theorem tiles_sum_size (wire : Option Buffer) (stop : Nat) :
    ∀ (cs : List Block) (start : Nat), tiles wire start stop cs →
      start ≤ stop ∧ (cs.map Block.m_size).sum = stop - start := by
  intro cs
  induction cs with
  | nil =>
    intro start h
    simp only [tiles] at h
    simp [h]
  | cons c cs ih =>
    intro start h
    obtain ⟨_, h2, h3, h4, h5, h6, h7, h8⟩ := h
    have := ih _ h8
    simp only [List.map_cons, List.sum_cons]
    omega

theorem tiles_hasWire (wire : Option Buffer) (stop : Nat) :
    ∀ (cs : List Block) (start : Nat), tiles wire start stop cs →
      ∀ c ∈ cs, c.m_buffer = wire ∧ c.m_begin < c.m_end ∧ c.m_size = c.m_end - c.m_begin := by
  intro cs
  induction cs with
  | nil => intro start _ c hc; cases hc
  | cons d cs ih =>
    intro start h c hc
    obtain ⟨h1, h2, h3, h4, h5, h6, h7, h8⟩ := h
    rcases List.mem_cons.1 hc with rfl | hmem
    · exact ⟨h1, by omega, h7⟩
    · exact ih _ h8 c hmem

/-- C5: when `parse()` populates the children of a Block (none were cached, it returns
normally, and at least one child is produced), the whole-element sizes of the children
add up to the value size of the Block, and the children tile the value range in order,
each beginning where the previous one ended. -/
theorem parse_children_sum (b b1 : Block) (h0 : b.m_subBlocks = [])
    (hp : b.parse = .returned b1) (hne : b1.m_subBlocks ≠ []) :
    (b1.m_subBlocks.map Block.m_size).sum = b1.value_size ∧
    (∀ c ∈ b1.m_subBlocks, c.hasWire = true ∧ c.size = .ok c.m_size) ∧
    tiles b1.m_buffer b1.m_value_begin b1.m_value_end b1.m_subBlocks := by
  unfold parse at hp
  split_ifs at hp with h
  · simp only [Outcome.returned.injEq] at hp
    rw [← hp, h0] at hne
    exact absurd rfl hne
  · simp only [Bool.or_eq_true, not_or, beq_iff_eq] at h
    have hv : b.hasValue = true ∧ b.value_size = b.m_value_end - b.m_value_begin := by
      unfold value_size at h ⊢
      split_ifs at h ⊢ with h2
      · simp at h
      · simpa using h2
    split at hp
    · cases hp
    · next subs hloop =>
      simp only [Outcome.returned.injEq] at hp
      obtain ⟨new, hsubs, htiles⟩ := parseLoop_tiles _ _ _ _ _ _ hloop (by omega)
      rw [h0, List.nil_append] at hsubs
      subst hsubs
      have hsum := tiles_sum_size _ _ _ _ htiles
      have hsome : b.m_buffer.isSome = true := hv.1
      subst hp
      refine ⟨?_, ?_, htiles⟩
      · have : value_size { b with m_subBlocks := subs } = b.value_size := rfl
        rw [this, hv.2]
        exact hsum.2
      · intro c hc
        have hcw := tiles_hasWire _ _ _ _ htiles c hc
        have : c.hasWire = true := by
          simp [hasWire, hcw.1, hsome]
          omega
        exact ⟨this, by simp [size, this]⟩
    · cases hp

end Block

end ndn

namespace ndn

namespace Block

/-- The instance of C5 at the element of type 7 with three children of three octets
each: the sizes add up to the nine octets of the value. -/
theorem parse_children_sum_witness :
    exampleBlock.m_subBlocks = [] ∧ exampleBlock.parse = .returned exampleParsed ∧
    (exampleParsed.m_subBlocks.map Block.m_size).sum = exampleParsed.value_size ∧
    exampleParsed.value_size = 9 :=
  ⟨rfl, rfl,
    (parse_children_sum exampleBlock exampleParsed rfl rfl (List.cons_ne_nil _ _)).1, rfl⟩

end Block

/-! ## `encode()` -/

namespace tlv

theorem writeVarNumber_ne_nil (n : Nat) : writeVarNumber n ≠ [] := by
  intro h
  have h1 := writeVarNumber_length n
  have h2 := sizeOfVarNumber_pos n
  rw [h, List.length_nil] at h1
  omega

/-- Reading a number at a position where `writeVarNumber` wrote one gives it back. -/
theorem readVarNumber_of_range {buffer : Buffer} {b e n : Nat} {rest : List Byte}
    (h : range buffer b e = writeVarNumber n ++ rest) :
    readVarNumber buffer b e = .ok (n % 18446744073709551616, b + sizeOfVarNumber n) := by
  unfold readVarNumber tryReadVarNumber
  rw [h, decodeVarNumber_writeVarNumber]
  simp [writeVarNumber_ne_nil]

/-- Reading a type at a position where `writeVarNumber` wrote a 32-bit number gives it
back. -/
theorem readType_of_range {buffer : Buffer} {b e n : Nat} {rest : List Byte}
    (hn : n < 4294967296) (h : range buffer b e = writeVarNumber n ++ rest) :
    readType buffer b e = .ok (n, b + sizeOfVarNumber n) := by
  unfold readType
  rw [readVarNumber_of_range h]
  have h1 : n % 18446744073709551616 = n := Nat.mod_eq_of_lt (by omega)
  have h2 : ¬ n > 4294967295 := by omega
  simp [h1, h2]

end tlv

namespace Block

theorem type_lt (b : Block) : b.type < 4294967296 := Nat.mod_lt _ (by decide)

/-- The second loop of `encode()` only appends to the stream. -/
theorem encodeSubBlocks_prefix :
    ∀ (l : List Block) (os0 os : List Byte), encodeSubBlocks l os0 = .ok os →
      ∃ tail, os = os0 ++ tail := by
  intro l
  induction l with
  | nil =>
    intro os0 os h
    simp only [encodeSubBlocks, Except.ok.injEq] at h
    exact ⟨[], by simp [h]⟩
  | cons i rest ih =>
    intro os0 os h
    unfold encodeSubBlocks at h
    split_ifs at h with h1 h2
    · obtain ⟨tail, ht⟩ := ih _ _ h
      exact ⟨i.wireBytes ++ tail, by simp [ht]⟩
    · obtain ⟨tail, ht⟩ := ih _ _ h
      exact ⟨tlv.writeVarNumber i.type ++ (tlv.writeVarNumber i.value_size
        ++ (i.valueBytes ++ tail)), by rw [ht]; simp only [List.append_assoc]⟩

/-- Whatever `encode()` writes starts with the type and a length. -/
theorem encodeStream_shape {b : Block} {os : List Byte} (h : encodeStream b = .ok os) :
    ∃ n rest, os = tlv.writeVarNumber b.type ++ tlv.writeVarNumber n ++ rest := by
  unfold encodeStream at h
  simp only [] at h
  split_ifs at h with h1 h2
  · simp only [Except.ok.injEq] at h
    exact ⟨_, _, h.symm⟩
  · simp only [Except.ok.injEq] at h
    exact ⟨0, [], by simp [← h]⟩
  · split at h
    · cases h
    · next valueSize hv =>
      obtain ⟨tail, ht⟩ := encodeSubBlocks_prefix _ _ _ h
      exact ⟨valueSize, tail, ht⟩

/-- Once the stream is written, `encode()` installs it as the buffer and re-derives the
value range from the header it reads back; the two reads cannot fail. -/
theorem encode_of_stream {b : Block} {n : Nat} {rest : List Byte}
    (hw : b.hasWire = false)
    (hs : encodeStream b = .ok (tlv.writeVarNumber b.type ++ tlv.writeVarNumber n ++ rest)) :
    b.encode = .returned
      { b with
        m_buffer := some (tlv.writeVarNumber b.type ++ tlv.writeVarNumber n ++ rest),
        m_begin := 0,
        m_end := (tlv.writeVarNumber b.type ++ tlv.writeVarNumber n ++ rest).length,
        m_size := (tlv.writeVarNumber b.type ++ tlv.writeVarNumber n ++ rest).length - 0,
        m_value_begin := 0 + tlv.sizeOfVarNumber b.type + tlv.sizeOfVarNumber n,
        m_value_end := (tlv.writeVarNumber b.type ++ tlv.writeVarNumber n ++ rest).length } := by
  unfold encode
  simp only [hw, hs, Bool.false_eq_true, if_false]
  generalize hos : tlv.writeVarNumber b.type ++ tlv.writeVarNumber n ++ rest = os
  have h1 : range os 0 os.length
      = tlv.writeVarNumber b.type ++ (tlv.writeVarNumber n ++ rest) := by
    rw [range_zero_length, ← hos, List.append_assoc]
  have hT := tlv.readType_of_range (type_lt b) h1
  have h2 : range os (0 + tlv.sizeOfVarNumber b.type) os.length
      = tlv.writeVarNumber n ++ rest := by
    rw [← range_drop, h1, ← tlv.writeVarNumber_length, List.drop_left]
  have hL := tlv.readVarNumber_of_range h2
  simp only [hT, hL]

end Block

end ndn

namespace ndn

namespace Block

/-- The first loop of `encode()` adds up the cached sizes when every sub-block has a
wire or a value. -/
theorem encodeValueSize_ok :
    ∀ (l : List Block) (acc : Nat), (∀ c ∈ l, c.hasValue = true) →
      encodeValueSize l acc = .ok (acc + (l.map Block.m_size).sum) := by
  intro l
  induction l with
  | nil => intro acc _; simp [encodeValueSize]
  | cons i rest ih =>
    intro acc h
    have hi : i.hasValue = true := h i (List.mem_cons_self _ _)
    have hrest : ∀ c ∈ rest, c.hasValue = true :=
      fun c hc => h c (List.mem_cons_of_mem _ hc)
    simp only [encodeValueSize, size, hi, Bool.or_true, if_true, ih _ hrest, List.map_cons,
      List.sum_cons, Nat.add_assoc]

/-- The first loop of `encode()` throws at a sub-block without wire and value. -/
theorem encodeValueSize_error :
    ∀ (l : List Block) (acc : Nat), (∃ c ∈ l, c.hasValue = false) →
      ∃ e, encodeValueSize l acc = .error e := by
  intro l
  induction l with
  | nil => intro acc h; obtain ⟨c, hc, _⟩ := h; cases hc
  | cons i rest ih =>
    intro acc h
    by_cases hi : i.hasValue = true
    · have hrest : ∃ c ∈ rest, c.hasValue = false := by
        obtain ⟨c, hc, hcv⟩ := h
        rcases List.mem_cons.1 hc with rfl | hmem
        · rw [hi] at hcv; cases hcv
        · exact ⟨c, hmem, hcv⟩
      simpa [encodeValueSize, size, hi] using ih _ hrest
    · have hw : i.hasWire = false := by
        simp only [hasValue, Bool.not_eq_true] at hi
        simp [hasWire, hi]
      simp only [Bool.not_eq_true] at hi
      simp [encodeValueSize, size, hi, hw]

/-- The second loop of `encode()` appends the octets of each sub-block in order when
every sub-block has a wire or a value. -/
theorem encodeSubBlocks_ok :
    ∀ (l : List Block) (os : List Byte), (∀ c ∈ l, c.hasValue = true) →
      encodeSubBlocks l os = .ok (os ++ (l.map subBlockOctets).flatten) := by
  intro l
  induction l with
  | nil => intro os _; simp [encodeSubBlocks]
  | cons i rest ih =>
    intro os h
    have hi : i.hasValue = true := h i (List.mem_cons_self _ _)
    have hrest : ∀ c ∈ rest, c.hasValue = true :=
      fun c hc => h c (List.mem_cons_of_mem _ hc)
    unfold encodeSubBlocks
    by_cases hw : i.hasWire = true
    · simp [hw, ih _ hrest, subBlockOctets]
    · simp [hw, hi, ih _ hrest, subBlockOctets]

theorem hasWire_false_of_hasValue_false {b : Block} (h : b.hasValue = false) :
    b.hasWire = false := by
  simp only [hasValue] at h
  simp [hasWire, h]

/-- A throw of `encode()` comes from the writing of the stream and leaves the Block as
it was. -/
theorem encode_threw {b s : Block} {e : Error} (h : b.encode = .threw e s) :
    s = b ∧ b.hasWire = false ∧ encodeStream b = .error e := by
  by_cases hw : b.hasWire = true
  · simp [encode, hw] at h
  · simp only [Bool.not_eq_true] at hw
    cases hs : encodeStream b with
    | error e1 =>
      simp only [encode, hw, hs, Bool.false_eq_true, if_false, Outcome.threw.injEq] at h
      exact ⟨h.2.symm, hw, by rw [h.1]⟩
    | ok os =>
      obtain ⟨n, rest, hos⟩ := encodeStream_shape hs
      rw [hos] at hs
      rw [encode_of_stream hw hs] at h
      cases h

/-- C10: for a Block that is not wire-backed and carries no raw value, `encode()` fails
exactly when its children list holds a child with neither a wire nor raw value octets;
and whenever `encode()` fails (on any Block) the Block is left with every field as it
was before the call. -/
theorem encode_failure_atomic (b : Block) :
    (b.hasWire = false → b.hasValue = false →
      ((∃ e s, b.encode = .threw e s) ↔
        ∃ c ∈ b.m_subBlocks, c.hasWire = false ∧ c.hasValue = false)) ∧
    (∀ e s, b.encode = .threw e s → s = b) ∧
    b.encode ≠ .diverged := by
  refine ⟨?_, fun e s h => (encode_threw h).1, ?_⟩
  · intro hw hv
    constructor
    · rintro ⟨e, s, h⟩
      have hs := (encode_threw h).2.2
      by_contra hno
      have hall : ∀ c ∈ b.m_subBlocks, c.hasValue = true := by
        intro c hc
        by_contra hcv
        simp only [Bool.not_eq_true] at hcv
        exact hno ⟨c, hc, hasWire_false_of_hasValue_false hcv, hcv⟩
      unfold encodeStream at hs
      simp only [hv, Bool.false_eq_true, if_false] at hs
      split_ifs at hs with h0
      rw [encodeValueSize_ok _ _ hall] at hs
      simp only [encodeSubBlocks_ok _ _ hall] at hs
      cases hs
    · rintro ⟨c, hc, _, hcv⟩
      have hne : ¬ b.m_subBlocks.length = 0 := by
        intro h0
        rw [List.length_eq_zero] at h0
        rw [h0] at hc
        cases hc
      obtain ⟨e, he⟩ := encodeValueSize_error b.m_subBlocks 0 ⟨c, hc, hcv⟩
      refine ⟨e, b, ?_⟩
      simp [encode, hw, encodeStream, hv, hne, he]
  · intro hd
    by_cases hw : b.hasWire = true
    · simp [encode, hw] at hd
    · simp only [Bool.not_eq_true] at hw
      cases hs : encodeStream b with
      | error e1 => simp [encode, hw, hs] at hd
      | ok os =>
        obtain ⟨n, rest, hos⟩ := encodeStream_shape hs
        rw [hos] at hs
        rw [encode_of_stream hw hs] at hd
        cases hd

/-- The instance of C10 at a Block of type 7 whose only child has neither wire nor
value: `encode()` throws and the Block is unchanged. -/
theorem encode_failure_atomic_witness :
    (∃ e s, exampleUnencodable.encode = .threw e s) ∧
    exampleUnencodable.encode = .threw
      (.blockError "Block size cannot be determined (undefined block size)")
      exampleUnencodable :=
  ⟨((encode_failure_atomic exampleUnencodable).1 rfl rfl).2
      ⟨ofType 3, List.mem_cons_self _ _, rfl, rfl⟩, rfl⟩

end Block

end ndn

namespace ndn

namespace Block

/-- After `encode()` wrote its stream, the Block is wire-backed and its element octets
are the stream. -/
theorem encode_wire_of_stream {b : Block} {n : Nat} {rest : List Byte}
    (hw : b.hasWire = false)
    (hs : encodeStream b = .ok (tlv.writeVarNumber b.type ++ tlv.writeVarNumber n ++ rest)) :
    ∃ b1, b.encode = .returned b1 ∧ b1.hasWire = true ∧
      b1.m_buffer = some (tlv.writeVarNumber b.type ++ tlv.writeVarNumber n ++ rest) ∧
      b1.wireBytes = tlv.writeVarNumber b.type ++ tlv.writeVarNumber n ++ rest ∧
      b1.m_type = b.m_type ∧ b1.m_subBlocks = b.m_subBlocks := by
  refine ⟨_, encode_of_stream hw hs, ?_, rfl, ?_, rfl, rfl⟩
  · have h1 := tlv.sizeOfVarNumber_pos b.type
    have h2 := tlv.writeVarNumber_length b.type
    simp only [hasWire, Option.isSome_some, Bool.true_and, bne_iff_ne, ne_eq,
      List.length_append]
    omega
  · simp [wireBytes, bytes]

/-- The validating construction on the octets of a type, a length and that many value
octets. -/
theorem ofBuffer_of_wire {T : Nat} {V : Buffer} (hT : T < 4294967296)
    (hV : V.length < 18446744073709551616) :
    ofBuffer (tlv.writeVarNumber T ++ tlv.writeVarNumber V.length ++ V) = .ok
      { m_buffer := some (tlv.writeVarNumber T ++ tlv.writeVarNumber V.length ++ V),
        m_type := T, m_begin := 0,
        m_end := (tlv.writeVarNumber T ++ tlv.writeVarNumber V.length ++ V).length,
        m_size := (tlv.writeVarNumber T ++ tlv.writeVarNumber V.length ++ V).length - 0,
        m_value_begin := 0 + tlv.sizeOfVarNumber T + tlv.sizeOfVarNumber V.length,
        m_value_end := (tlv.writeVarNumber T ++ tlv.writeVarNumber V.length ++ V).length,
        m_subBlocks := [] } := by
  generalize hos : tlv.writeVarNumber T ++ tlv.writeVarNumber V.length ++ V = os
  have hlen : os.length = tlv.sizeOfVarNumber T + tlv.sizeOfVarNumber V.length + V.length := by
    rw [← hos]
    simp [tlv.writeVarNumber_length, Nat.add_assoc]
  have h1 : range os 0 os.length
      = tlv.writeVarNumber T ++ (tlv.writeVarNumber V.length ++ V) := by
    rw [range_zero_length, ← hos, List.append_assoc]
  have hrT := tlv.readType_of_range hT h1
  have h2 : range os (0 + tlv.sizeOfVarNumber T) os.length
      = tlv.writeVarNumber V.length ++ V := by
    rw [← range_drop, h1, ← tlv.writeVarNumber_length, List.drop_left]
  have hrL := tlv.readVarNumber_of_range h2
  rw [Nat.mod_eq_of_lt hV] at hrL
  have hchk : V.length
      = os.length - (0 + tlv.sizeOfVarNumber T + tlv.sizeOfVarNumber V.length) := by
    omega
  unfold ofBuffer
  simp only [hrT, hrL]
  rw [if_neg (not_not.2 hchk)]

/-- The value octets of a Block built on header-plus-value octets are the value. -/
theorem valueBytes_of_wire (T : Nat) (V : Buffer) (subs : List Block) :
    valueBytes
      { m_buffer := some (tlv.writeVarNumber T ++ tlv.writeVarNumber V.length ++ V),
        m_type := T, m_begin := 0,
        m_end := (tlv.writeVarNumber T ++ tlv.writeVarNumber V.length ++ V).length,
        m_size := (tlv.writeVarNumber T ++ tlv.writeVarNumber V.length ++ V).length - 0,
        m_value_begin := 0 + tlv.sizeOfVarNumber T + tlv.sizeOfVarNumber V.length,
        m_value_end := (tlv.writeVarNumber T ++ tlv.writeVarNumber V.length ++ V).length,
        m_subBlocks := subs } = V := by
  have hd : (tlv.writeVarNumber T ++ tlv.writeVarNumber V.length ++ V).drop
      (0 + tlv.sizeOfVarNumber T + tlv.sizeOfVarNumber V.length) = V := by
    have : 0 + tlv.sizeOfVarNumber T + tlv.sizeOfVarNumber V.length
        = (tlv.writeVarNumber T ++ tlv.writeVarNumber V.length).length := by
      simp [tlv.writeVarNumber_length]
    rw [this, List.drop_left]
  simp only [valueBytes, bytes, Option.getD_some, hd, value_size, hasValue,
    Option.isSome_some]
  simp [tlv.writeVarNumber_length]
  omega

/-- The stream `encode()` writes for a Block built from a type and raw value octets. -/
theorem encodeStream_ofTypeValue (T : Nat) (V : Buffer) :
    encodeStream (ofTypeValue T V)
      = .ok (tlv.writeVarNumber (ofTypeValue T V).type ++ tlv.writeVarNumber V.length ++ V) := by
  have h1 : (ofTypeValue T V).hasValue = true := rfl
  have h2 : (ofTypeValue T V).value_size = V.length := by
    simp [value_size, hasValue, ofTypeValue]
  have h3 : (ofTypeValue T V).valueBytes = V := by
    simp only [valueBytes, h2]
    simp [bytes, ofTypeValue]
  simp [encodeStream, h1, h2, h3]

/-- C1: round trip.  For a 32-bit type `T` and value octets `V` (of a length that a
`size_t` holds), `encode()` on the Block built from `(T, V)` succeeds and leaves it
wire-backed with the octets of `T`, of the length of `V` and of `V`; the validating
construction from exactly those wire octets succeeds and yields a Block of type `T`
whose value octets are `V`. -/
theorem encode_roundtrip (T : Nat) (V : Buffer) (hT : T < 4294967296)
    (hV : V.length < 18446744073709551616) :
    ∃ b1 b2, (ofTypeValue T V).encode = .returned b1 ∧ b1.hasWire = true ∧
      b1.m_buffer = some b1.wireBytes ∧
      b1.wireBytes = tlv.writeVarNumber T ++ tlv.writeVarNumber V.length ++ V ∧
      ofBuffer b1.wireBytes = .ok b2 ∧
      b2.type = T ∧ b2.m_type = T ∧ b2.value_size = V.length ∧ b2.valueBytes = V := by
  have hty : (ofTypeValue T V).type = T := Nat.mod_eq_of_lt hT
  have hs := encodeStream_ofTypeValue T V
  have hnw : (ofTypeValue T V).hasWire = false := by simp [hasWire, ofTypeValue]
  obtain ⟨b1, he, hw, hbuf, hwb, _, _⟩ := encode_wire_of_stream hnw hs
  rw [hty] at hbuf hwb
  refine ⟨b1, _, he, hw, by rw [hbuf, hwb], hwb, hwb ▸ ofBuffer_of_wire hT hV, ?_, rfl,
    ?_, ?_⟩
  · exact Nat.mod_eq_of_lt hT
  · simp only [hwb]
    simp [value_size, hasValue, tlv.writeVarNumber_length]
    omega
  · simp only [hwb]
    exact valueBytes_of_wire T V []

/-- The instance of C1 at type 5 and value 01 02: the wire octets are 05 02 01 02. -/
theorem encode_roundtrip_witness :
    ∃ b1 b2, (ofTypeValue 5 [0x01, 0x02]).encode = .returned b1 ∧
      b1.wireBytes = [0x05, 0x02, 0x01, 0x02] ∧
      ofBuffer b1.wireBytes = .ok b2 ∧ b2.type = 5 ∧ b2.valueBytes = [0x01, 0x02] := by
  obtain ⟨b1, b2, h1, _, _, h4, h5, h6, _, _, h9⟩ :=
    encode_roundtrip 5 [0x01, 0x02] (by decide) (by decide)
  exact ⟨b1, b2, h1, h4, h5, h6, h9⟩

end Block

end ndn

namespace ndn

theorem range_self (buffer : Buffer) (b : Nat) : range buffer b b = [] := by
  simp [range]

namespace Block

/-- The second loop of `encode()` writes, for children that tile a range of a buffer,
exactly the octets of that range. -/
theorem tiles_flatten (buffer : Buffer) (stop : Nat) :
    ∀ (cs : List Block) (start : Nat), tiles (some buffer) start stop cs →
      (cs.map subBlockOctets).flatten = range buffer start stop := by
  intro cs
  induction cs with
  | nil =>
    intro start h
    simp only [tiles] at h
    simp [h, range_self]
  | cons c cs ih =>
    intro start h
    obtain ⟨h1, h2, h3, h4, h5, h6, h7, h8⟩ := h
    have hle := (tiles_sum_size _ _ _ _ h8).1
    have hw : c.hasWire = true := by
      simp [hasWire, h1]
      omega
    have hoct : subBlockOctets c = range buffer c.m_begin c.m_end := by
      simp only [subBlockOctets, hw, if_true, wireBytes, bytes, h1, Option.getD_some, h7,
        range]
      rw [List.drop_take]
    simp only [List.map_cons, List.flatten_cons, ih _ h8, hoct]
    rw [← h2]
    exact range_append_range buffer (by omega) hle

/-- The stream `encode()` writes for a Block without buffer whose children tile the
range `[start, stop)` of a buffer. -/
theorem encodeStream_of_tiles {b : Block} {buffer : Buffer} {start stop : Nat}
    (hv : b.hasValue = false) (hne : b.m_subBlocks ≠ [])
    (ht : tiles (some buffer) start stop b.m_subBlocks) :
    encodeStream b = .ok (tlv.writeVarNumber b.type ++ tlv.writeVarNumber (stop - start)
      ++ range buffer start stop) := by
  have hall : ∀ c ∈ b.m_subBlocks, c.hasValue = true := by
    intro c hc
    have := (tiles_hasWire _ _ _ _ ht c hc).1
    simp [hasValue, this]
  have hlen : ¬ b.m_subBlocks.length = 0 := by
    rw [List.length_eq_zero]; exact hne
  unfold encodeStream
  simp only [hv, Bool.false_eq_true, if_false, hlen, encodeValueSize_ok _ _ hall,
    encodeSubBlocks_ok _ _ hall, (tiles_sum_size _ _ _ _ ht).2, tiles_flatten _ _ _ _ ht,
    Nat.zero_add]

/-- The stream `encode()` writes for a Block without buffer whose children all have a
buffer: the type, the sum of the cached sizes of the children, the octets of each
child in order (a zero length and nothing when there is no child). -/
theorem encodeStream_children {b : Block} (hv : b.hasValue = false)
    (hall : ∀ c ∈ b.m_subBlocks, c.hasValue = true) :
    encodeStream b = .ok (tlv.writeVarNumber b.type
      ++ tlv.writeVarNumber (b.m_subBlocks.map Block.m_size).sum
      ++ (b.m_subBlocks.map subBlockOctets).flatten) := by
  by_cases hlen : b.m_subBlocks.length = 0
  · have hnil : b.m_subBlocks = [] := List.length_eq_zero.1 hlen
    simp [encodeStream, hv, hnil]
  · unfold encodeStream
    simp only [hv, Bool.false_eq_true, if_false, hlen, encodeValueSize_ok _ _ hall,
      encodeSubBlocks_ok _ _ hall, Nat.zero_add]

/-- C4: the three representations give the same wire octets.  With `W` the wire that
`encode()` produces on the Block built from `(T, V)`, the validating construction from
`W` succeeds and gives a wire-backed Block on which `encode()` changes nothing;
whenever `parse()` then returns normally, `resetWire()` drops the buffer and keeps the
type and the children, so that `encode()` serialises the children list (the type, the
sum of the sizes of the children, the octets of each child) and the wire octets it
produces are equal to `W`. -/
theorem encode_parse_resetWire_encode (T : Nat) (V : Buffer) (hT : T < 4294967296)
    (hV : V.length < 18446744073709551616) :
    ∃ b1 b2, (ofTypeValue T V).encode = .returned b1 ∧
      b1.wireBytes = tlv.writeVarNumber T ++ tlv.writeVarNumber V.length ++ V ∧
      ofBuffer b1.wireBytes = .ok b2 ∧
      b2.hasWire = true ∧ b2.wireBytes = b1.wireBytes ∧ b2.encode = .returned b2 ∧
      ∀ b3, b2.parse = .returned b3 →
        b3.hasWire = true ∧ (V ≠ [] → b3.m_subBlocks ≠ []) ∧
        b3.resetWire.m_buffer = none ∧ b3.resetWire.hasWire = false ∧
        b3.resetWire.hasValue = false ∧ b3.resetWire.type = T ∧
        b3.resetWire.m_subBlocks = b3.m_subBlocks ∧
        encodeStream b3.resetWire = .ok (tlv.writeVarNumber T
          ++ tlv.writeVarNumber (b3.m_subBlocks.map Block.m_size).sum
          ++ (b3.m_subBlocks.map subBlockOctets).flatten) ∧
        ∃ b5, b3.resetWire.encode = .returned b5 ∧ b5.hasWire = true ∧
          b5.wireBytes = b1.wireBytes ∧ b5.m_buffer = some b1.wireBytes ∧
          b5.m_subBlocks = b3.m_subBlocks := by
  have hty : (ofTypeValue T V).type = T := Nat.mod_eq_of_lt hT
  have hnw : (ofTypeValue T V).hasWire = false := by simp [hasWire, ofTypeValue]
  obtain ⟨b1, he, _, _, hwb, _, _⟩ :=
    encode_wire_of_stream hnw (encodeStream_ofTypeValue T V)
  rw [hty] at hwb
  have hsp := tlv.sizeOfVarNumber_pos T
  refine ⟨b1, _, he, hwb, hwb ▸ ofBuffer_of_wire hT hV, ?_⟩
  rw [hwb]
  have hdrop : (tlv.writeVarNumber T ++ tlv.writeVarNumber V.length ++ V).drop
      (0 + tlv.sizeOfVarNumber T + tlv.sizeOfVarNumber V.length) = V := by
    have : 0 + tlv.sizeOfVarNumber T + tlv.sizeOfVarNumber V.length
        = (tlv.writeVarNumber T ++ tlv.writeVarNumber V.length).length := by
      simp [tlv.writeVarNumber_length]
    rw [this, List.drop_left]
  have hlen : (tlv.writeVarNumber T ++ tlv.writeVarNumber V.length ++ V).length
      = 0 + tlv.sizeOfVarNumber T + tlv.sizeOfVarNumber V.length + V.length := by
    simp [tlv.writeVarNumber_length, Nat.add_assoc]
  have hpos : 0 < 0 + tlv.sizeOfVarNumber T + tlv.sizeOfVarNumber V.length := by omega
  generalize hWdef : tlv.writeVarNumber T ++ tlv.writeVarNumber V.length ++ V = W
    at hdrop hlen ⊢
  generalize 0 + tlv.sizeOfVarNumber T + tlv.sizeOfVarNumber V.length = hd
    at hdrop hlen hpos ⊢
  have hT32 : T % 4294967296 = T := Nat.mod_eq_of_lt hT
  have hw2 : hasWire
      { m_buffer := some W, m_type := T, m_begin := 0, m_end := W.length,
        m_size := W.length - 0, m_value_begin := hd, m_value_end := W.length,
        m_subBlocks := [] } = true := by
    simp only [hasWire, Option.isSome_some, Bool.true_and, bne_iff_ne, ne_eq]
    omega
  refine ⟨hw2, ?_, by unfold encode; rw [if_pos hw2], ?_⟩
  · simp [wireBytes, bytes]
  intro b3 hp
  -- the children that `parse()` left tile the value range
  have hvs : value_size
      { m_buffer := some W, m_type := T, m_begin := 0, m_end := W.length,
        m_size := W.length - 0, m_value_begin := hd, m_value_end := W.length,
        m_subBlocks := [] } = V.length := by
    simp [value_size, hasValue, hlen]
  have hshape : ∃ subs, b3 =
      { m_buffer := some W, m_type := T, m_begin := 0, m_end := W.length,
        m_size := W.length - 0, m_value_begin := hd, m_value_end := W.length,
        m_subBlocks := subs } ∧ tiles (some W) hd W.length subs := by
    unfold parse at hp
    simp only [hvs, List.isEmpty_nil, Bool.not_true, Bool.false_or, beq_iff_eq] at hp
    by_cases hV0 : V.length = 0
    · simp only [hV0, if_true, Outcome.returned.injEq] at hp
      refine ⟨[], hp.symm, ?_⟩
      show hd = W.length
      omega
    · simp only [hV0, if_false] at hp
      split at hp
      · cases hp
      · next subs hloop =>
        simp only [Outcome.returned.injEq] at hp
        obtain ⟨new, hsubs, htiles⟩ :
            ∃ new, subs = [] ++ new ∧ tiles (some W) hd W.length new :=
          parseLoop_tiles _ _ _ _ _ _ hloop (Nat.le.intro hlen.symm)
        rw [List.nil_append] at hsubs
        subst hsubs
        exact ⟨subs, hp.symm, htiles⟩
      · cases hp
  obtain ⟨subs, hb3, htiles⟩ := hshape
  subst hb3
  have hall : ∀ c ∈ subs, c.hasValue = true := by
    intro c hc
    have := (tiles_hasWire _ _ _ _ htiles c hc).1
    simp [hasValue, this]
  have hsum : (subs.map Block.m_size).sum = V.length := by
    rw [(tiles_sum_size _ _ _ _ htiles).2]
    omega
  have hflat : (subs.map subBlockOctets).flatten = V := by
    rw [tiles_flatten _ _ _ _ htiles, range_to_length, hdrop]
  have hstream2 := encodeStream_children
    (b := resetWire
      { m_buffer := some W, m_type := T, m_begin := 0, m_end := W.length,
        m_size := W.length - 0, m_value_begin := hd, m_value_end := W.length,
        m_subBlocks := subs })
    rfl hall
  have hstream := hstream2
  have htype : type (resetWire
      { m_buffer := some W, m_type := T, m_begin := 0, m_end := W.length,
        m_size := W.length - 0, m_value_begin := hd, m_value_end := W.length,
        m_subBlocks := subs }) = T := hT32
  rw [htype] at hstream
  obtain ⟨b5, h5, h5w, h5m, h5b, _, h5s⟩ := encode_wire_of_stream
    (b := resetWire
      { m_buffer := some W, m_type := T, m_begin := 0, m_end := W.length,
        m_size := W.length - 0, m_value_begin := hd, m_value_end := W.length,
        m_subBlocks := subs })
    rfl hstream2
  rw [htype] at h5m h5b
  have hWeq : tlv.writeVarNumber T
      ++ tlv.writeVarNumber ((resetWire
        { m_buffer := some W, m_type := T, m_begin := 0, m_end := W.length,
          m_size := W.length - 0, m_value_begin := hd, m_value_end := W.length,
          m_subBlocks := subs }).m_subBlocks.map Block.m_size).sum
      ++ ((resetWire
        { m_buffer := some W, m_type := T, m_begin := 0, m_end := W.length,
          m_size := W.length - 0, m_value_begin := hd, m_value_end := W.length,
          m_subBlocks := subs }).m_subBlocks.map subBlockOctets).flatten = W := by
    show tlv.writeVarNumber T ++ tlv.writeVarNumber (subs.map Block.m_size).sum
      ++ (subs.map subBlockOctets).flatten = W
    rw [hsum, hflat, hWdef]
  rw [hWeq] at h5m h5b
  refine ⟨?_, ?_, rfl, rfl, rfl, hT32, rfl, hstream, b5, h5, h5w, h5b, h5m, h5s⟩
  · simp only [hasWire, Option.isSome_some, Bool.true_and, bne_iff_ne, ne_eq]
    omega
  · intro hVne h0
    have h0b : subs = [] := h0
    rw [h0b] at htiles
    have hV0 : V.length ≠ 0 := fun h => hVne (List.length_eq_zero.1 h)
    have : hd = W.length := htiles
    omega

end Block

end ndn

namespace ndn

namespace Block

/-- The instance of C4 at type 7 and a value holding three children: `parse()` returns
on the Block built from the encoded wire, `resetWire()` drops its buffer, and encoding
again from the children list gives the same eleven octets. -/
theorem encode_parse_resetWire_encode_witness :
    exampleBlock.parse = .returned exampleParsed ∧
    exampleParsed.resetWire.m_buffer = none ∧
    encodeStream exampleParsed.resetWire = .ok exampleWire ∧
    ∃ b5, exampleParsed.resetWire.encode = .returned b5 ∧ b5.wireBytes = exampleWire := by
  obtain ⟨b1, b2, _, h2, h3, _, _, _, h4⟩ := encode_parse_resetWire_encode 7
    [0x01, 0x01, 0xAA, 0x02, 0x01, 0xBB, 0x01, 0x01, 0xCC] (by decide) (by decide)
  rw [h2] at h3 h4
  have hb2 : Except.ok exampleBlock = (Except.ok b2 : Except Error Block) := h3
  have hb2 : exampleBlock = b2 := Except.ok.inj hb2
  subst hb2
  obtain ⟨_, _, h7, _, _, _, _, h12, b5, h5, _, h6, _⟩ := h4 exampleParsed rfl
  exact ⟨rfl, h7, h12, b5, h5, h6⟩

end Block

end ndn

/-! ## `encode()` from children, idempotence -/

namespace ndn

namespace Block

theorem hasValue_of_hasWire {b : Block} (h : b.hasWire = true) : b.hasValue = true := by
  simp only [hasWire, Bool.and_eq_true] at h
  exact h.1

/-- C11: for a Block that is not wire-backed and has no raw value, with a non-empty
children list in which every child is wire-backed or carries raw value octets,
`encode()` produces the encoding of the type, then the encoding of the sum of the
children's whole-element sizes, then for each child in order its stored wire octets if
it is wire-backed, else its type, its value length and its value octets; with no
children the output is the encoding of the type followed by a zero length. -/
theorem encode_from_children (b : Block) (hw : b.hasWire = false)
    (hv : b.hasValue = false) :
    (b.m_subBlocks ≠ [] →
      (∀ c ∈ b.m_subBlocks, c.hasWire = true ∨ c.hasValue = true) →
      (∀ c ∈ b.m_subBlocks, c.size = .ok c.m_size ∧
        subBlockOctets c = if c.hasWire then c.wireBytes
          else tlv.writeVarNumber c.type ++ tlv.writeVarNumber c.value_size
            ++ c.valueBytes) ∧
      ∃ b1, b.encode = .returned b1 ∧ b1.hasWire = true ∧
        b1.wireBytes = tlv.writeVarNumber b.type
          ++ tlv.writeVarNumber (b.m_subBlocks.map Block.m_size).sum
          ++ (b.m_subBlocks.map subBlockOctets).flatten) ∧
    (b.m_subBlocks = [] →
      ∃ b1, b.encode = .returned b1 ∧ b1.hasWire = true ∧
        b1.wireBytes = tlv.writeVarNumber b.type ++ tlv.writeVarNumber 0) := by
  constructor
  · intro hne hall
    have hall2 : ∀ c ∈ b.m_subBlocks, c.hasValue = true := by
      intro c hc
      rcases hall c hc with h | h
      · exact hasValue_of_hasWire h
      · exact h
    refine ⟨fun c hc => ⟨by simp [size, hall2 c hc], rfl⟩, ?_⟩
    have hlen : ¬ b.m_subBlocks.length = 0 := by
      rw [List.length_eq_zero]; exact hne
    have hs : encodeStream b = .ok (tlv.writeVarNumber b.type
        ++ tlv.writeVarNumber (b.m_subBlocks.map Block.m_size).sum
        ++ (b.m_subBlocks.map subBlockOctets).flatten) := by
      unfold encodeStream
      simp only [hv, Bool.false_eq_true, if_false, hlen, encodeValueSize_ok _ _ hall2,
        encodeSubBlocks_ok _ _ hall2, Nat.zero_add]
    obtain ⟨b1, h1, h2, _, h4, _, _⟩ := encode_wire_of_stream hw hs
    exact ⟨b1, h1, h2, h4⟩
  · intro hnil
    have hs : encodeStream b
        = .ok (tlv.writeVarNumber b.type ++ tlv.writeVarNumber 0 ++ []) := by
      simp [encodeStream, hv, hnil]
    obtain ⟨b1, h1, h2, _, h4, _, _⟩ := encode_wire_of_stream hw hs
    exact ⟨b1, h1, h2, by simpa using h4⟩

/-- The instance of C11 at a Block of type 7 with a wire-backed child 05 02 01 02 and a
child of type 6 built from the raw value AA: the wire is 07 07 05 02 01 02 06 01 AA. -/
theorem encode_from_children_witness :
    ∃ b1, encode { ofType 7 with m_subBlocks := [exampleLeaf, ofTypeValue 6 [0xAA]] }
        = .returned b1 ∧
      b1.wireBytes = [0x07, 0x07, 0x05, 0x02, 0x01, 0x02, 0x06, 0x01, 0xAA] := by
  obtain ⟨b1, h1, _, h3⟩ :=
    ((encode_from_children
      { ofType 7 with m_subBlocks := [exampleLeaf, ofTypeValue 6 [0xAA]] } rfl rfl).1
      (List.cons_ne_nil _ _)
      (by
        intro c hc
        simp only [List.mem_cons, List.mem_singleton, List.not_mem_nil, or_false] at hc
        rcases hc with rfl | rfl
        · exact Or.inl rfl
        · exact Or.inr rfl)).2
  exact ⟨b1, h1, h3⟩

/-- C12: whenever `encode()` returns, the Block is wire-backed afterwards (its element
range is not empty) and a second `encode()` returns with the very same Block: wire
octets, element range, value range and cached size are those after the first call. -/
theorem encode_idempotent (b b1 : Block) (h : b.encode = .returned b1) :
    b1.hasWire = true ∧ b1.m_begin ≠ b1.m_end ∧ b1.encode = .returned b1 := by
  have hw1 : b1.hasWire = true := by
    by_cases hw : b.hasWire = true
    · simp only [encode, hw, if_true, Outcome.returned.injEq] at h
      rw [← h]; exact hw
    · simp only [Bool.not_eq_true] at hw
      cases hs : encodeStream b with
      | error e => simp [encode, hw, hs] at h
      | ok os =>
        obtain ⟨n, rest, hos⟩ := encodeStream_shape hs
        rw [hos] at hs
        obtain ⟨b2, h2, h3, _⟩ := encode_wire_of_stream hw hs
        rw [h2] at h
        simp only [Outcome.returned.injEq] at h
        rw [← h]; exact h3
  refine ⟨hw1, ?_, by simp [encode, hw1]⟩
  simp only [hasWire, Bool.and_eq_true, bne_iff_ne, ne_eq] at hw1
  exact hw1.2

/-- The instance of C12 at the Block built from type 5 and value 01 02. -/
theorem encode_idempotent_witness :
    (ofTypeValue 5 [0x01, 0x02]).encode = .returned exampleLeaf ∧
    exampleLeaf.encode = .returned exampleLeaf :=
  ⟨rfl, (encode_idempotent (ofTypeValue 5 [0x01, 0x02]) exampleLeaf rfl).2.2⟩

end Block

end ndn

/-! ## Nesting: `Block(type, block)` and `blockFromValue()` -/

namespace ndn

namespace Block

/-- C13, as the code has it: built from type 7 and the wire-backed Block 05 02 01 02,
the new Block has the four octets of the whole element as its value, not the two
value octets 01 02 of the given Block, and its cached size counts those four. -/
theorem ofTypeBlock_value_is_element :
    exampleLeaf.hasWire = true ∧
    ∃ b, ofTypeBlock 7 exampleLeaf = some (.ok b) ∧
      b.valueBytes = [0x05, 0x02, 0x01, 0x02] ∧ exampleLeaf.valueBytes = [0x01, 0x02] ∧
      b.valueBytes ≠ exampleLeaf.valueBytes ∧
      b.value_size ≠ exampleLeaf.value_size ∧
      b.m_size ≠ tlv.sizeOfVarNumber 7 + tlv.sizeOfVarNumber exampleLeaf.value_size
        + exampleLeaf.value_size :=
  ⟨rfl, _, rfl, rfl, rfl, by decide, by decide, by decide⟩

/-- C13 amended: built from a type `T` and a wire-backed Block `B`, the new Block has
type `T`, shares the buffer of `B` and has the element range `[begin, end)` of `B` as
its value range: its value octets are the whole-element octets of `B`, its value size
is the length of that range, and its cached size is the size of the header of `T` and
of that value size plus the value size. -/
theorem ofTypeBlock_wraps (T : Nat) (B : Block) (hw : B.hasWire = true) :
    ∃ b, ofTypeBlock T B = some (.ok b) ∧ b.m_type = T ∧ b.m_buffer = B.m_buffer ∧
      b.m_value_begin = B.m_begin ∧ b.m_value_end = B.m_end ∧
      b.value_size = B.m_end - B.m_begin ∧
      b.valueBytes = (B.bytes.drop B.m_begin).take (B.m_end - B.m_begin) ∧
      (B.m_size = B.m_end - B.m_begin →
        b.valueBytes = B.wireBytes ∧ b.value_size = B.m_size) ∧
      b.m_size = tlv.sizeOfVarNumber T + tlv.sizeOfVarNumber b.value_size + b.value_size ∧
      b.hasWire = false := by
  have hv : B.m_buffer.isSome = true := hasValue_of_hasWire hw
  have hvs : ∀ (s : Nat), value_size (Block.mk B.m_buffer T B.bytes.length B.bytes.length s
      B.m_begin B.m_end []) = B.m_end - B.m_begin := by
    intro s
    simp [value_size, hasValue, hv]
  have hok : ofTypeBlock T B
      = some (.ok (Block.mk B.m_buffer T B.bytes.length B.bytes.length
        (tlv.sizeOfVarNumber T + tlv.sizeOfVarNumber (B.m_end - B.m_begin)
          + (B.m_end - B.m_begin)) B.m_begin B.m_end [])) := by
    cases hbuf : B.m_buffer with
    | none => rw [hbuf] at hv; cases hv
    | some buf =>
      have hvs2 := hvs 0
      simp only [hbuf, bytes, Option.getD_some] at hvs2
      simp [ofTypeBlock, begin, end_, hw, hbuf, bytes, hvs2]
  refine ⟨_, hok, rfl, rfl, rfl, rfl, hvs _, ?_, ?_, ?_, ?_⟩
  · simp only [valueBytes, hvs]
    rfl
  · intro hsz
    refine ⟨?_, by rw [hvs, hsz]⟩
    simp only [valueBytes, hvs, wireBytes, hsz]
    rfl
  · simp only [hvs]
  · simp [hasWire]

/-- The instance of the amended C13 at type 7 and the Block 05 02 01 02. -/
theorem ofTypeBlock_wraps_witness :
    ∃ b, ofTypeBlock 7 exampleLeaf = some (.ok b) ∧ b.valueBytes = exampleLeaf.wireBytes ∧
      b.value_size = 4 ∧ b.m_size = 6 := by
  obtain ⟨b, h1, _, _, _, _, h6, _, h8, h9, _⟩ := ofTypeBlock_wraps 7 exampleLeaf rfl
  have h6b : b.value_size = 4 := h6
  refine ⟨b, h1, (h8 rfl).1, h6b, ?_⟩
  rw [h9, h6b]
  rfl

/-- C14: `blockFromValue()` fails with a `Block::Error` when the value is empty;
otherwise, when the front of the value decodes as a type `T` and a declared length
`L`, it fails (with a format error) exactly when `L` differs from the value octets left
after that header; on success the returned Block has type `T`, its element octets are
the value octets of this Block and its value octets are those after the nested
header.  On the Block built from 05 02 01 02 it fails with a format error. -/
theorem blockFromValue_validates :
    (∀ b : Block, b.value_size = 0 →
      blockFromValue b = .error (.blockError "Underlying value buffer is empty") ∧
      (Error.blockError "Underlying value buffer is empty").isFormatError = false) ∧
    (∀ (b : Block) (T p1 L p2 : Nat), b.value_size ≠ 0 →
      tlv.readType b.bytes b.m_value_begin b.m_value_end = .ok (T, p1) →
      tlv.readVarNumber b.bytes p1 b.m_value_end = .ok (L, p2) →
      ((∃ e, blockFromValue b = .error e) ↔ L ≠ b.m_value_end - p2) ∧
      (∀ e, blockFromValue b = .error e →
        e = .tlvError "TLV length mismatches buffer length" ∧ e.isFormatError = true) ∧
      (∀ r, blockFromValue b = .ok r →
        r.m_type = T ∧ r.type = T ∧ r.m_buffer = b.m_buffer ∧
        r.m_begin = b.m_value_begin ∧ r.m_end = b.m_value_end ∧
        r.m_value_begin = p2 ∧ r.m_value_end = b.m_value_end ∧
        r.wireBytes = b.valueBytes ∧
        r.valueBytes = b.valueBytes.drop (p2 - b.m_value_begin) ∧ r.value_size = L)) ∧
    (∃ B e, ofBuffer [0x05, 0x02, 0x01, 0x02] = .ok B ∧ blockFromValue B = .error e ∧
      e.isFormatError = true) := by
  refine ⟨fun b h0 => ⟨by simp [blockFromValue, h0], rfl⟩, ?_, ⟨_, _, rfl, rfl, rfl⟩⟩
  intro b T p1 L p2 hne hT hL
  have hb1 := tlv.readType_bounds hT
  have hb2 := tlv.readVarNumber_bounds hL
  have hv : b.hasValue = true ∧ b.value_size = b.m_value_end - b.m_value_begin := by
    unfold value_size at hne ⊢
    split_ifs at hne ⊢ with h2
    · exact absurd rfl hne
    · simpa using h2
  have hsome : b.m_buffer.isSome = true := hv.1
  by_cases hlen : L = b.m_value_end - p2
  · have hok : blockFromValue b
        = .ok (ofRanges b.m_buffer T b.m_value_begin b.m_value_end p2 b.m_value_end) := by
      simp [blockFromValue, hne, hT, hL, hlen]
    refine ⟨by simp [hok, hlen], ?_, ?_⟩
    · intro e he; rw [hok] at he; cases he
    · intro r hr
      rw [hok] at hr
      cases hr
      have hrv : value_size (ofRanges b.m_buffer T b.m_value_begin b.m_value_end p2
          b.m_value_end) = b.m_value_end - p2 := by
        simp [value_size, hasValue, ofRanges, hsome]
      have hT32 : T % 4294967296 = T := Nat.mod_eq_of_lt (by omega)
      have hi1 : b.m_value_begin + (p2 - b.m_value_begin) = p2 := by omega
      have hi2 : b.m_value_end - b.m_value_begin - (p2 - b.m_value_begin)
          = b.m_value_end - p2 := by omega
      refine ⟨rfl, hT32, rfl, rfl, rfl, rfl, rfl, ?_, ?_, ?_⟩
      · simp only [wireBytes, valueBytes, hv.2]
        rfl
      · simp only [valueBytes, hrv, hv.2]
        rw [List.drop_take, List.drop_drop, hi1, hi2]
        rfl
      · rw [hrv, hlen]
  · have herr : blockFromValue b
        = .error (.tlvError "TLV length mismatches buffer length") := by
      simp [blockFromValue, hne, hT, hL, hlen]
    refine ⟨by simp [herr, hlen], ?_, ?_⟩
    · intro e he; rw [herr] at he; cases he; exact ⟨rfl, rfl⟩
    · intro r hr; rw [herr] at hr; cases hr

/-- The instance of C14 at the Block built from 07 04 05 02 01 02, whose value is the
complete element 05 02 01 02. -/
theorem blockFromValue_validates_witness :
    ∀ r, blockFromValue (ofRanges (some [0x07, 0x04, 0x05, 0x02, 0x01, 0x02]) 7 0 6 2 6)
        = .ok r →
      r.m_type = 5 ∧ r.wireBytes = [0x05, 0x02, 0x01, 0x02] ∧
      r.valueBytes = [0x01, 0x02] := by
  intro r hr
  have h := (blockFromValue_validates.2.1
    (ofRanges (some [0x07, 0x04, 0x05, 0x02, 0x01, 0x02]) 7 0 6 2 6) 5 3 2 4
    (by decide) rfl rfl).2.2 r hr
  exact ⟨h.1, h.2.2.2.2.2.2.2.1, h.2.2.2.2.2.2.2.2.1⟩

end Block

end ndn

/-! ## `find`, `get` and `operator==` -/

namespace ndn

namespace Block

theorem find_if_le (pred : Block → Bool) (l : List Block) : find_if pred l ≤ l.length := by
  induction l with
  | nil => simp [find_if]
  | cons x xs ih =>
    simp only [find_if, List.length_cons]
    split_ifs <;> omega

/-- The iterator of `std::find_if` points at what `List.find?` returns: the first
element in list order that satisfies the predicate, or past the end if there is none. -/
theorem find_if_get (pred : Block → Bool) (l : List Block) :
    l[find_if pred l]? = l.find? pred := by
  induction l with
  | nil => simp [find_if]
  | cons x xs ih =>
    by_cases hx : pred x = true
    · simp [find_if, hx, List.find?]
    · simp only [Bool.not_eq_true] at hx
      simp [find_if, hx, List.find?, ih]

theorem find_if_before (pred : Block → Bool) (l : List Block) :
    ∀ (j : Nat) (c : Block), j < find_if pred l → l[j]? = some c → pred c = false := by
  induction l with
  | nil => intro j c hj; simp [find_if] at hj
  | cons x xs ih =>
    intro j c hj hc
    by_cases hx : pred x = true
    · simp [find_if, hx] at hj
    · simp only [Bool.not_eq_true] at hx
      simp only [find_if, hx, Bool.false_eq_true, if_false] at hj
      cases j with
      | zero =>
        simp only [List.getElem?_cons_zero, Option.some.injEq] at hc
        rw [← hc]; exact hx
      | succ j =>
        simp only [List.getElem?_cons_succ] at hc
        exact ih j c (by omega) hc

theorem find_if_eq_length (pred : Block → Bool) (l : List Block) :
    find_if pred l = l.length ↔ ∀ c ∈ l, pred c = false := by
  induction l with
  | nil => simp [find_if]
  | cons x xs ih =>
    by_cases hx : pred x = true
    · simp [find_if, hx]
    · simp only [Bool.not_eq_true] at hx
      simp [find_if, hx, ih]

/-- C15: `find(X)` gives the position of the first child in list order whose type is
`X`, or the end of the list when there is none; `get(X)` returns that same child and
fails, with a `Block::Error`, exactly when no child has type `X`.  Both are functions
of the Block that return no new state. -/
theorem get_find_first (b : Block) (X : Nat) :
    b.find X ≤ b.m_subBlocks.length ∧
    b.m_subBlocks[b.find X]? = b.m_subBlocks.find? (fun c => c.type == X) ∧
    (∀ c, b.m_subBlocks[b.find X]? = some c → c.type = X) ∧
    (∀ j c, j < b.find X → b.m_subBlocks[j]? = some c → c.type ≠ X) ∧
    (b.find X = b.m_subBlocks.length ↔ ∀ c ∈ b.m_subBlocks, c.type ≠ X) ∧
    (∀ c, b.get X = .ok c ↔ b.m_subBlocks[b.find X]? = some c) ∧
    ((∃ e, b.get X = .error e) ↔ ∀ c ∈ b.m_subBlocks, c.type ≠ X) ∧
    (∀ e, b.get X = .error e → e.isFormatError = false) := by
  have hle : b.find X ≤ b.m_subBlocks.length := find_if_le _ _
  have hget := find_if_get (fun c => c.type == X) b.m_subBlocks
  have hend : b.find X = b.m_subBlocks.length ↔ ∀ c ∈ b.m_subBlocks, c.type ≠ X := by
    unfold find
    rw [find_if_eq_length]
    simp
  refine ⟨hle, hget, ?_, ?_, hend, ?_, ?_, ?_⟩
  · intro c hc
    have h2 : b.m_subBlocks.find? (fun c => c.type == X) = some c := by
      rw [← hget]; exact hc
    simpa using List.find?_some h2
  · intro j c hj hc
    have := find_if_before _ _ j c hj hc
    simpa using this
  · intro c
    unfold get
    simp only []
    by_cases h : b.find X = b.m_subBlocks.length
    · simp [h]
    · have hlt : b.find X < b.m_subBlocks.length := by omega
      simp only [ne_eq, h, not_false_eq_true, if_true, Except.ok.injEq]
      rw [List.getD_eq_getElem?_getD, List.getElem?_eq_getElem hlt]
      simp
  · rw [← hend]
    unfold get
    simp only []
    by_cases h : b.find X = b.m_subBlocks.length
    · simp [h]
    · simp [h]
  · intro e he
    unfold get at he
    simp only [] at he
    split_ifs at he
    · cases he; rfl

/-- The instance of C15 at the parsed example with children of types 1, 2, 1:
`find(2)` is the position 1 and `get(2)` the second child, `get(9)` fails. -/
theorem get_find_first_witness :
    exampleParsed.find 2 = 1 ∧
    exampleParsed.get 2 = .ok (ofRanges (some exampleWire) 2 5 8 7 8) ∧
    ∃ e, exampleParsed.get 9 = .error e :=
  ⟨rfl, ((get_find_first exampleParsed 2).2.2.2.2.2.1 _).2 rfl,
    (get_find_first exampleParsed 9).2.2.2.2.2.2.1.2 (by
      intro c hc
      simp only [exampleParsed, List.mem_cons, List.mem_singleton, List.not_mem_nil,
        or_false] at hc
      rcases hc with rfl | rfl | rfl <;> decide)⟩

end Block

end ndn

namespace ndn

namespace Block

theorem stdEqual_iff (l1 : List Byte) :
    ∀ l2 : List Byte, stdEqual l1 l2 = true ↔ (l1.length ≤ l2.length ∧ l2.take l1.length = l1) := by
  induction l1 with
  | nil => intro l2; simp [stdEqual]
  | cons x xs ih =>
    intro l2
    cases l2 with
    | nil => simp [stdEqual]
    | cons y ys =>
      simp only [stdEqual, Bool.and_eq_true, beq_iff_eq, ih ys, List.length_cons,
        List.take_succ_cons, List.cons.injEq]
      constructor
      · rintro ⟨rfl, h1, h2⟩
        exact ⟨by omega, rfl, h2⟩
      · rintro ⟨h1, rfl, h2⟩
        exact ⟨rfl, by omega, h2⟩

theorem wireBytes_length {b : Block} (wf : wireWellFormed b) :
    b.wireBytes.length = b.m_size := by
  obtain ⟨h1, h2, h3⟩ := wf
  simp only [wireBytes, List.length_take, List.length_drop]
  omega

theorem wireBytes_eq_range {b : Block} (wf : wireWellFormed b) :
    b.wireBytes = range b.bytes b.m_begin b.m_end := by
  obtain ⟨h1, h2, h3⟩ := wf
  simp only [wireBytes, range, h3]
  rw [List.drop_take]

/-- On wire-backed Blocks `operator==` returns whether the whole-element octets are the
same. -/
theorem operatorEq_wire {a b : Block} (ha : a.hasWire = true) (hb : b.hasWire = true)
    (wa : wireWellFormed a) (wb : wireWellFormed b) :
    operatorEq a b = .ok (decide (a.wireBytes = b.wireBytes)) := by
  have hla := wireBytes_length wa
  have hlb := wireBytes_length wb
  unfold operatorEq
  simp only [size, ha, hb, Bool.true_or, if_true, begin, end_, Bool.not_true,
    Bool.false_eq_true, if_false]
  by_cases hs : a.m_size = b.m_size
  · simp only [hs, ne_eq, not_true_eq_false, if_false, Except.ok.injEq]
    rw [← wireBytes_eq_range wa]
    have hiff := stdEqual_iff a.wireBytes (b.bytes.drop b.m_begin)
    have htake : (b.bytes.drop b.m_begin).take a.wireBytes.length = b.wireBytes := by
      rw [hla, hs]; rfl
    have hlen : a.wireBytes.length ≤ (b.bytes.drop b.m_begin).length := by
      obtain ⟨h1, h2, h3⟩ := wb
      rw [hla, hs, List.length_drop]
      omega
    rw [htake] at hiff
    by_cases heq : a.wireBytes = b.wireBytes
    · rw [decide_eq_true heq]
      exact hiff.2 ⟨hlen, heq.symm⟩
    · rw [decide_eq_false heq]
      cases hst : stdEqual a.wireBytes (b.bytes.drop b.m_begin) with
      | false => rfl
      | true => exact absurd (hiff.1 hst).2.symm heq
  · have hne : a.wireBytes ≠ b.wireBytes := by
      intro h
      rw [h, hlb] at hla
      exact hs hla.symm
    simp [hs, hne]

/-- C16: for wire-backed Blocks `a == b` holds exactly when their whole-element wire
octets are identical, whatever their children lists; so `==` is reflexive, symmetric
and transitive on them.  A Block of type 5 and value 01 02 built from a buffer equals
the child of the same octets parsed out of another buffer, and differs from the Block
of value 01 03. -/
theorem operatorEq_iff_wireBytes :
    (∀ a b : Block, a.hasWire = true → b.hasWire = true → wireWellFormed a →
      wireWellFormed b →
      (operatorEq a b = .ok true ↔ a.wireBytes = b.wireBytes) ∧
      (operatorEq a b = .ok false ↔ a.wireBytes ≠ b.wireBytes)) ∧
    (∀ a : Block, a.hasWire = true → wireWellFormed a → operatorEq a a = .ok true) ∧
    (∀ a b : Block, a.hasWire = true → b.hasWire = true → wireWellFormed a →
      wireWellFormed b → operatorEq a b = .ok true → operatorEq b a = .ok true) ∧
    (∀ a b c : Block, a.hasWire = true → b.hasWire = true → c.hasWire = true →
      wireWellFormed a → wireWellFormed b → wireWellFormed c →
      operatorEq a b = .ok true → operatorEq b c = .ok true → operatorEq a c = .ok true) ∧
    operatorEq exampleLeaf (ofRanges (some [0x07, 0x04, 0x05, 0x02, 0x01, 0x02]) 5 2 6 4 6)
      = .ok true ∧
    operatorEq exampleLeaf (ofRanges (some [0x05, 0x02, 0x01, 0x03]) 5 0 4 2 4)
      = .ok false := by
  have main : ∀ a b : Block, a.hasWire = true → b.hasWire = true → wireWellFormed a →
      wireWellFormed b → (operatorEq a b = .ok true ↔ a.wireBytes = b.wireBytes) := by
    intro a b ha hb wa wb
    rw [operatorEq_wire ha hb wa wb]
    simp
  refine ⟨?_, ?_, ?_, ?_, rfl, rfl⟩
  · intro a b ha hb wa wb
    refine ⟨main a b ha hb wa wb, ?_⟩
    rw [operatorEq_wire ha hb wa wb]
    simp
  · intro a ha wa
    exact (main a a ha ha wa wa).2 rfl
  · intro a b ha hb wa wb h
    exact (main b a hb ha wb wa).2 ((main a b ha hb wa wb).1 h).symm
  · intro a b c ha hb hc wa wb wc h1 h2
    exact (main a c ha hc wa wc).2
      (((main a b ha hb wa wb).1 h1).trans ((main b c hb hc wb wc).1 h2))

/-- The instance of C16 at the example element of type 7 before and after `parse()`:
the two are equal although only one has a children list. -/
theorem operatorEq_iff_wireBytes_witness :
    operatorEq exampleBlock exampleParsed = .ok true :=
  ((operatorEq_iff_wireBytes.1 exampleBlock exampleParsed rfl rfl
    ⟨by decide, by decide, rfl⟩ ⟨by decide, by decide, rfl⟩).1).2 rfl

end Block

end ndn

/-! ## Termination and bounds of `parse()` -/

namespace ndn

namespace Block

/-- Whatever way the loop of `parse()` ends, the children it leaves lie in the scanned
range and each took at least two octets of it. -/
theorem parseLoop_inside (wire : Option Buffer) (lo e : Nat) :
    ∀ (fuel begin : Nat) (acc : List Block) (r : Option Error) (subs : List Block),
      parseLoop wire e fuel begin acc = some (r, subs) → lo ≤ begin → begin ≤ e →
      (∀ c ∈ acc, insideRange lo e c) →
      (∀ c ∈ subs, insideRange lo e c) ∧
        2 * subs.length ≤ 2 * acc.length + (e - begin) := by
  intro fuel
  induction fuel with
  | zero =>
    intro begin acc r subs h hlo hle hacc
    unfold parseLoop at h
    split_ifs at h with hbe
    simp only [Option.some.injEq, Prod.mk.injEq] at h
    rw [← h.2]
    exact ⟨hacc, by omega⟩
  | succ fuel ih =>
    intro begin acc r subs h hlo hle hacc
    unfold parseLoop at h
    split_ifs at h with hbe
    · simp only [Option.some.injEq, Prod.mk.injEq] at h
      rw [← h.2]
      exact ⟨hacc, by omega⟩
    · simp only [] at h
      split at h
      · simp only [Option.some.injEq, Prod.mk.injEq] at h
        rw [← h.2]
        exact ⟨hacc, by omega⟩
      · next T p1 hT =>
        split at h
        · simp only [Option.some.injEq, Prod.mk.injEq] at h
          rw [← h.2]
          exact ⟨hacc, by omega⟩
        · next L p2 hL =>
          have hb1 := tlv.readType_bounds hT
          have hb2 := tlv.readVarNumber_bounds hL
          split_ifs at h with hlen
          · simp only [Option.some.injEq, Prod.mk.injEq] at h
            rw [← h.2]
            exact ⟨fun c hc => (by cases hc), by simp⟩
          · have hacc2 : ∀ c ∈ acc ++ [ofRanges wire T begin (p2 + L) p2 (p2 + L)],
                insideRange lo e c := by
              intro c hc
              rcases List.mem_append.1 hc with h1 | h1
              · exact hacc c h1
              · rw [List.mem_singleton] at h1
                subst h1
                refine ⟨hlo, ?_, ?_, rfl, ?_⟩
                · show begin + 2 ≤ p2
                  omega
                · show p2 ≤ p2 + L
                  omega
                · show p2 + L ≤ e
                  omega
            obtain ⟨h1, h2⟩ := ih (p2 + L) _ r subs h (by omega) (by omega) hacc2
            refine ⟨h1, ?_⟩
            simp only [List.length_append, List.length_singleton] at h2
            omega

/-- C20: `parse()` is total: on every Block the scan terminates (the model never runs
out of fuel), because an iteration that does not fail moves the scan position forward
by at least the two header octets and never past the end of the value range; the
children it leaves, on return or on a throw, number at most half the value size, and
the element range and the value range of each lie inside the value range of the
parent. -/
theorem parse_total (b : Block) :
    b.parse ≠ .diverged ∧
    (∀ (buffer : Buffer) (begin end_ T p1 L p2 : Nat),
      tlv.readType buffer begin end_ = .ok (T, p1) →
      tlv.readVarNumber buffer p1 end_ = .ok (L, p2) → ¬ L > end_ - p2 →
      begin + 2 ≤ p2 ∧ begin + 2 ≤ p2 + L ∧ p2 + L ≤ end_) ∧
    (b.m_subBlocks = [] → ∀ b1 : Block,
      (b.parse = .returned b1 ∨ ∃ e, b.parse = .threw e b1) →
      2 * b1.m_subBlocks.length ≤ b.value_size ∧
      ∀ c ∈ b1.m_subBlocks, insideRange b.m_value_begin b.m_value_end c) := by
  refine ⟨parse_ne_diverged b, ?_, ?_⟩
  · intro buffer begin end_ T p1 L p2 hT hL hlen
    have hb1 := tlv.readType_bounds hT
    have hb2 := tlv.readVarNumber_bounds hL
    omega
  · intro h0 b1 hp
    by_cases hc : (!b.m_subBlocks.isEmpty || b.value_size == 0) = true
    · have hb1 : b1 = b := by
        rcases hp with hp | ⟨e, hp⟩
        · simp only [parse, hc, if_true, Outcome.returned.injEq] at hp
          exact hp.symm
        · simp [parse, hc] at hp
      rw [hb1, h0]
      exact ⟨by simp, fun c hc => (by cases hc)⟩
    · have hvs : b.value_size = b.m_value_end - b.m_value_begin ∧ b.value_size ≠ 0 := by
        simp only [Bool.or_eq_true, not_or, beq_iff_eq] at hc
        refine ⟨?_, hc.2⟩
        have h2 := hc.2
        unfold value_size at h2 ⊢
        split_ifs at h2 ⊢ with h3
        · exact absurd rfl h2
        · rfl
      have key : ∀ (r : Option Error) (subs : List Block),
          parseLoop b.m_buffer b.m_value_end b.value_size b.m_value_begin b.m_subBlocks
            = some (r, subs) →
          2 * subs.length ≤ b.value_size ∧
            ∀ c ∈ subs, insideRange b.m_value_begin b.m_value_end c := by
        intro r subs hl
        obtain ⟨h1, h2⟩ := parseLoop_inside _ b.m_value_begin _ _ _ _ _ _ hl
          (Nat.le_refl _) (by omega) (by rw [h0]; intro c hc; cases hc)
        rw [h0] at h2
        simp only [List.length_nil] at h2
        exact ⟨by omega, h1⟩
      rcases hp with hp | ⟨e, hp⟩
      · unfold parse at hp
        rw [if_neg hc] at hp
        split at hp
        · cases hp
        · next subs hl =>
          simp only [Outcome.returned.injEq] at hp
          rw [← hp]
          exact key _ _ hl
        · cases hp
      · unfold parse at hp
        rw [if_neg hc] at hp
        split at hp
        · cases hp
        · cases hp
        · next e2 subs hl =>
          simp only [Outcome.threw.injEq] at hp
          rw [← hp.2]
          exact key _ _ hl

/-- The instance of C20 at the example element of type 7: three children in a value of
nine octets, each inside the value range 2 to 11. -/
theorem parse_total_witness :
    2 * exampleParsed.m_subBlocks.length ≤ exampleBlock.value_size ∧
    ∀ c ∈ exampleParsed.m_subBlocks, insideRange 2 11 c :=
  (parse_total exampleBlock).2.2 rfl exampleParsed (Or.inl rfl)

end Block

end ndn

/-! ## `fromStream` -/

namespace ndn

namespace Block

/-- The octets the iterator delivers are those of the successive extractions. -/
theorem iteratorOctets_extract (skipws : Bool) (is : List Byte) :
    iteratorOctets skipws is =
      match extractOctet skipws is with
      | none => []
      | some (b, rest) => b :: iteratorOctets skipws rest := by
  cases skipws with
  | false => cases is <;> simp [iteratorOctets, extractOctet]
  | true =>
    induction is with
    | nil => simp [iteratorOctets, extractOctet]
    | cons x xs ih =>
      by_cases hx : isSpace x = true
      · simp only [iteratorOctets, extractOctet, if_true, List.dropWhile_cons, hx,
          List.filter_cons, Bool.not_true, Bool.false_eq_true, if_false] at ih ⊢
        exact ih
      · simp only [Bool.not_eq_true] at hx
        simp [iteratorOctets, extractOctet, List.dropWhile_cons, hx, List.filter_cons]

theorem streamAfter_false (n : Nat) : ∀ is : List Byte, streamAfter false n is = is.drop n := by
  induction n with
  | zero => intro is; rfl
  | succ n ih =>
    intro is
    cases is with
    | nil => simp [streamAfter, extractOctet]
    | cons x xs => simp [streamAfter, extractOctet, ih]

/-- Where `fromStream` does succeed, on a stream that does not skip whitespace: a
header declaring a length `L` between 1 and the cap, followed by at least `L` octets,
gives the Block of the declared type whose value is those `L` octets. -/
theorem fromStream_complete {is : List Byte} {T p1 L p2 : Nat}
    (hT : tlv.readType is 0 is.length = .ok (T, p1))
    (hL : tlv.readVarNumber is p1 is.length = .ok (L, p2))
    (h1 : 1 ≤ L) (hcap : L ≤ MAX_SIZE_OF_BLOCK_FROM_STREAM) (hav : L ≤ is.length - p2) :
    ∃ b, fromStream false is = .ok b ∧ b.hasWire = true ∧ b.m_type = T ∧ b.type = T ∧
      b.valueBytes = range is p2 (p2 + L) ∧ b.value_size = L := by
  have hb1 := tlv.readType_bounds hT
  have hb2 := tlv.readVarNumber_bounds hL
  have hcap2 : L ≤ 8800 := hcap
  have hT32 : T < 4294967296 := by omega
  obtain ⟨x, xs, hx⟩ : ∃ x xs, is.drop p2 = x :: xs := by
    cases hd : is.drop p2 with
    | nil =>
      have := congrArg List.length hd
      simp only [List.length_drop, List.length_nil] at this
      omega
    | cons x xs => exact ⟨x, xs, rfl⟩
  have hxs : is.drop (p2 + 1) = xs := by
    rw [← List.drop_drop, hx]
    rfl
  have hxl : xs.length = is.length - p2 - 1 := by
    have := congrArg List.length hx
    simp only [List.length_drop, List.length_cons] at this
    omega
  have hV : range is p2 (p2 + L) = x :: xs.take (L - 1) := by
    unfold range
    rw [List.drop_take, hx]
    have : p2 + L - p2 = (L - 1) + 1 := by omega
    rw [this, List.take_succ_cons]
  have hVlen : (x :: xs.take (L - 1)).length = L := by
    simp only [List.length_cons, List.length_take]
    omega
  have hstream : fromStream false is = dataBlock T (x :: xs.take (L - 1)) L := by
    have hc1 : ¬ L > MAX_SIZE_OF_BLOCK_FROM_STREAM := by omega
    have hc2 : ¬ L = 0 := by omega
    have hg : (xs.take (L - 1)).length + 1 = L := by
      simp only [List.length_take]
      omega
    have hseen : iteratorOctets false is = is := rfl
    unfold fromStream
    simp only [hseen, hT, hL, hc1, if_false, hc2, streamAfter_false, hxs, istreamDeref, hx]
    rw [if_neg (by omega)]
  rw [← hV] at hVlen hstream
  generalize range is p2 (p2 + L) = V at hVlen hstream ⊢
  have hdata : dataBlock T V L
      = ofBuffer (tlv.writeVarNumber T ++ tlv.writeVarNumber V.length ++ V) := by
    unfold dataBlock
    rw [List.take_of_length_le (by omega), hVlen]
  have hok := ofBuffer_of_wire (T := T) (V := V) hT32 (by omega)
  have hsp := tlv.sizeOfVarNumber_pos T
  refine ⟨_, by rw [hstream, hdata, hok], ?_, rfl, ?_, ?_, ?_⟩
  · simp only [hasWire, Option.isSome_some, Bool.true_and, bne_iff_ne, ne_eq,
      List.length_append, tlv.writeVarNumber_length]
    omega
  · exact Nat.mod_eq_of_lt hT32
  · exact valueBytes_of_wire T V []
  · simp only [value_size, hasValue, Option.isSome_some, Bool.not_true, Bool.false_eq_true,
      if_false, List.length_append, tlv.writeVarNumber_length]
    omega

/-- C17, as the code has it: on a source holding the complete element 05 00 (type 5,
declared length 0, no value octet needed), and also when more octets follow it,
`fromStream` throws "Not enough data", whether the stream skips whitespace or not:
`is.read(buf + 1, length - 1)` reads nothing and the test `length != gcount + 1`
compares 0 with 1. -/
theorem fromStream_empty_value_fails :
    tlv.readType [0x05, 0x00] 0 2 = .ok (5, 1) ∧
    tlv.readVarNumber [0x05, 0x00] 1 2 = .ok (0, 2) ∧
    (∀ skipws, fromStream skipws [0x05, 0x00]
      = .error (.tlvError "Not enough data in the buffer to fully parse TLV")) ∧
    (∀ skipws, fromStream skipws [0x05, 0x00, 0x09]
      = .error (.tlvError "Not enough data in the buffer to fully parse TLV")) :=
  ⟨rfl, rfl, fun skipws => by cases skipws <;> rfl, fun skipws => by cases skipws <;> rfl⟩

/-- On a stream that skips whitespace (the default) the octets 09 to 0D and 20 never
reach the iterator: on the complete element 05 02 20 41 (type 5, value 20 41) followed
by 42 the octet 20 is dropped and the Block returned has the value 41 42; with the
flag cleared the value is 20 41. -/
theorem fromStream_skips_whitespace :
    (∃ b, fromStream true [0x05, 0x02, 0x20, 0x41, 0x42] = .ok b ∧
      b.valueBytes = [0x41, 0x42]) ∧
    (∃ b, fromStream false [0x05, 0x02, 0x20, 0x41, 0x42] = .ok b ∧
      b.valueBytes = [0x20, 0x41]) :=
  ⟨⟨_, rfl, rfl⟩, ⟨_, rfl, rfl⟩⟩

/-- C18, as the code has it: on a source holding only the header 05 01 (type 5,
declared length 1) and no value octet, `fromStream` does not throw, whether the stream
skips whitespace or not: the iterator is at the end of the source, `buf[0]` takes the
octet it last held, `gcount` is 0 and the test `length != gcount + 1` passes; a Block
with a value octet that the source never delivered is returned. -/
theorem fromStream_missing_octet_accepted :
    tlv.readType [0x05, 0x01] 0 2 = .ok (5, 1) ∧
    tlv.readVarNumber [0x05, 0x01] 1 2 = .ok (1, 2) ∧
    ∀ skipws, ∃ b, fromStream skipws [0x05, 0x01] = .ok b ∧ b.type = 5 ∧
      b.valueBytes = [0x01] :=
  ⟨rfl, rfl, fun skipws => by cases skipws <;> exact ⟨_, rfl, rfl, rfl⟩⟩

/-- Where the cap and the length test of `fromStream` do reject, on a stream that does
not skip whitespace: a declared length above the cap, and a declared length of at
least 1 with fewer octets behind the header, unless the length is 1 and nothing is
behind the header. -/
theorem fromStream_rejects {is : List Byte} {T p1 L p2 : Nat}
    (hT : tlv.readType is 0 is.length = .ok (T, p1))
    (hL : tlv.readVarNumber is p1 is.length = .ok (L, p2)) :
    (L > MAX_SIZE_OF_BLOCK_FROM_STREAM →
      fromStream false is = .error (.tlvError "Length of block from stream is too large")) ∧
    (1 ≤ L → L ≤ MAX_SIZE_OF_BLOCK_FROM_STREAM → is.length - p2 < L →
      ¬ (L = 1 ∧ is.length = p2) →
      fromStream false is
        = .error (.tlvError "Not enough data in the buffer to fully parse TLV")) := by
  have hb2 := tlv.readVarNumber_bounds hL
  have hseen : iteratorOctets false is = is := rfl
  constructor
  · intro h
    simp [fromStream, hseen, hT, hL, h]
  · intro h1 hcap hav hne
    have hc1 : ¬ L > MAX_SIZE_OF_BLOCK_FROM_STREAM := by omega
    have hc2 : ¬ L = 0 := by omega
    have hg : ¬ ((is.drop (p2 + 1)).take (L - 1)).length + 1 = L := by
      simp only [List.length_take, List.length_drop]
      omega
    unfold fromStream
    simp only [hseen, hT, hL, hc1, if_false, hc2, streamAfter_false]
    rw [if_pos (fun h => hg h.symm)]

end Block

end ndn
